import Mathlib

/-!
# Verification of the quest-extraction pipeline (scripts/parse-quest-helper.ts)

A shallow embedding of the build-time quest extraction script.  Source text is
modelled as `List Char`; the script's index-based scans become scans over list
suffixes (advancing the index `i` corresponds to dropping a prefix).  The
JavaScript regexes used by the script are embedded as deterministic scanners:
each one is accompanied by a comment quoting the regex and justifying why a
backtracking engine behaves deterministically on it (every quantified character
class is disjoint from the character that must follow, so greedy maximal munch
is the unique viable choice; the few genuinely optional groups are tried
present-first exactly as a JS engine does).  The embedding assumes method
names passed to the locator are word-character identifiers, which holds for
every call site in the script ("getPanels", "setupSteps", ...).

JS `Map` is modelled as an insertion-ordered association list (`mapSet`
overwrites in place, `mapGet` looks up the unique binding); JS `Array.includes`
/ `Set.has` become `memB`.  JS string truthiness (`if (s)`) is modelled
explicitly where the script relies on it (`truthyGet`).  `parseInt` on a
captured digit run becomes `digitsToNat` (exact arithmetic; the script never
relies on float precision for the claims at hand).
-/

/-- JS `\s` for the ASCII range (the script's sources are ASCII):
space, tab, newline, carriage return, vertical tab, form feed. -/
def jsSpace (c : Char) : Bool :=
  c.toNat == 32 || c.toNat == 9 || c.toNat == 10 || c.toNat == 13 ||
    c.toNat == 11 || c.toNat == 12

/-- JS `\w`: `[a-zA-Z0-9_]`. -/
def wordChar (c : Char) : Bool :=
  (97 ≤ c.toNat && c.toNat ≤ 122) || (65 ≤ c.toNat && c.toNat ≤ 90) ||
    (48 ≤ c.toNat && c.toNat ≤ 57) || c.toNat == 95

/-- `[a-zA-Z_]`, the first character of the script's identifier regexes. -/
def identStartChar (c : Char) : Bool :=
  (97 ≤ c.toNat && c.toNat ≤ 122) || (65 ≤ c.toNat && c.toNat ≤ 90) || c.toNat == 95

/-- `[0-9]`. -/
def digitChar (c : Char) : Bool :=
  48 ≤ c.toNat && c.toNat ≤ 57

/-- The characters `{` and `}`, named once. -/
def braceOpen : Char := '\x7b'

def braceClose : Char := '\x7d'

/-- Consume a literal token: the anchored regex fragment `tok`. -/
def eatLit (tok s : List Char) : Option (List Char) :=
  if tok.isPrefixOf s then some (s.drop tok.length) else none

/-- Consume one expected character. -/
def eatChar (c : Char) : List Char → Option (List Char)
  | x :: r => if x = c then some r else none
  | [] => none

/-- `\s*` (greedy; deterministic whenever what follows cannot be whitespace). -/
def skipWs (s : List Char) : List Char := s.dropWhile jsSpace

/-- `\s+` (greedy, at least one). -/
def eatWs1 : List Char → Option (List Char)
  | x :: r => if jsSpace x then some (skipWs r) else none
  | [] => none

/-- A maximal nonempty run of characters satisfying `p` (a greedy `X+`). -/
def eatRun (p : Char → Bool) (s : List Char) : Option (List Char × List Char) :=
  match s.takeWhile p with
  | [] => none
  | t => some (t, s.drop t.length)

/-- An identifier `[a-zA-Z_][a-zA-Z0-9_]*` (maximal). -/
def eatIdent : List Char → Option (List Char × List Char)
  | c :: r =>
    if identStartChar c then
      some (c :: r.takeWhile wordChar, r.drop (r.takeWhile wordChar).length)
    else none
  | [] => none

/-- `parseInt` on a run of decimal digits. -/
def digitsToNat (l : List Char) : Nat :=
  l.foldl (fun a c => 10 * a + (c.toNat - 48)) 0

/-- A maximal nonempty digit run `(\d+)` together with its `parseInt` value. -/
def eatDigits (s : List Char) : Option (Nat × List Char) :=
  match eatRun digitChar s with
  | some (t, r) => some (digitsToNat t, r)
  | none => none

/-- Leftmost-match search: try the matcher at every suffix, left to right,
exactly as `String.prototype.match` with a non-global regex reports the
leftmost match.  Fuel `s.length + 1` always suffices. -/
def findFirstF {α : Type} (m : List Char → Option α) : Nat → List Char → Option α
  | 0, _ => none
  | _ + 1, [] =>
    none
  | fuel + 1, c :: rest =>
    match m (c :: rest) with
    | some a => some a
    | none => findFirstF m fuel rest

/-- `regex.exec` loop with the `g` flag: report the leftmost match, resume
scanning at the end of the match (`lastIndex`), repeat.  Matchers return the
suffix after the match, which is always strictly shorter, so fuel
`s.length + 1` suffices. -/
def scanAllF {α : Type} (m : List Char → Option (α × List Char)) :
    Nat → List Char → List α
  | 0, _ => []
  | _ + 1, [] => []
  | fuel + 1, c :: rest =>
    match m (c :: rest) with
    | some (a, r) => a :: scanAllF m fuel r
    | none => scanAllF m fuel rest

/-- Membership test on a list of strings (JS `includes` / `Set.has` under
string `===`). -/
def memB (x : List Char) : List (List Char) → Bool
  | [] => false
  | y :: ys => if y = x then true else memB x ys

/-- JS `Map.get`: the binding of the (unique) key, `none` if absent.  Also
reused as first-occurrence association lookup on raw match lists. -/
def mapGet {β : Type} (m : List (List Char × β)) (k : List Char) : Option β :=
  match m with
  | [] => none
  | (k', v) :: rest => if k' = k then some v else mapGet rest k

/-- JS `Map.set`: overwrite in place if the key is present (keeping its
insertion position), else append. -/
def mapSet {β : Type} (m : List (List Char × β)) (k : List Char) (v : β) :
    List (List Char × β) :=
  match m with
  | [] => [(k, v)]
  | (k', v') :: rest => if k' = k then (k', v) :: rest else (k', v') :: mapSet rest k v

/-! ## Method-Body Locator (`extractMethodBody`) -/

def litOverride : List Char := "@Override".toList

def litPublic : List Char := "public".toList

def litProtected : List Char := "protected".toList

/-- The optional `(?:@Override\s+)?`.  A JS engine tries the group first and
falls back to skipping it; since `@` can start neither `public` nor
`protected`, the choice is forced by whether the text starts with `@`. -/
def eatOverrideOpt (s : List Char) : Option (List Char) :=
  match s with
  | '@' :: _ => (eatLit litOverride s).bind eatWs1
  | _ => some s

/-- `(?:public|protected)` (leftmost alternative first; the two literals are
never prefixes of the same text). -/
def eatModifier (s : List Char) : Option (List Char) :=
  match eatLit litPublic s with
  | some r => some r
  | none => eatLit litProtected s

/-- The optional return-type group of the declaration regex, `present` branch:
`\w+(?:<[^>]+>)?\s+` followed by the method name literal.  Only the maximal
`\w+` run can succeed (a shorter run leaves a word character where `<` or
`\s` is required), and `[^>]+>` stops at the first `>`, so the branch is
deterministic. -/
def eatGenericOpt (s : List Char) : Option (List Char) :=
  match s with
  | '<' :: r => do
    let (_, r2) ← eatRun (fun c => c != '>') r
    eatChar '>' r2
  | _ => some s

def eatRetPresent (name : List Char) (s : List Char) : Option (List Char) := do
  let (_, s1) ← eatRun wordChar s
  let s2 ← eatGenericOpt s1
  let s3 ← eatWs1 s2
  eatLit name s3

/-- `(?:\w+(?:<[^>]+>)?\s+)?NAME`: the optional group is tried present-first
(JS greedy preference), falling back to matching the name directly. -/
def eatRetAndName (name : List Char) (s : List Char) : Option (List Char) :=
  match eatRetPresent name s with
  | some r => some r
  | none => eatLit name s

/-- One attempt of the declaration regex
`(?:@Override\s+)?(?:public|protected)\s+(?:\w+(?:<[^>]+>)?\s+)?NAME\s*\([^)]*\)\s*\{`
anchored at the start of `s`; returns the suffix after the opening brace
(JS `match.index + match[0].length`).  `[^)]*` stops at the first `)` and all
other greedy runs are followed by characters outside their class. -/
def eatParenBrace (s : List Char) : Option (List Char) := do
  let s5 ← eatChar '(' (skipWs s)
  let s6 ← eatChar ')' (s5.dropWhile (fun c => c != ')'))
  eatChar braceOpen (skipWs s6)

def matchDeclAt (name : List Char) (s : List Char) : Option (List Char) := do
  let s1 ← eatOverrideOpt s
  let s2 ← eatModifier s1
  let s3 ← eatWs1 s2
  let s4 ← eatRetAndName name s3
  eatParenBrace s4

/-- Leftmost declaration match: the suffix of `source` that follows the
matched declaration's opening brace. -/
def findDeclRest (name source : List Char) : Option (List Char) :=
  findFirstF (matchDeclAt name) (source.length + 1) source

/-- The brace-counting loop of `extractMethodBody`: starting from depth `d`
(the code starts at 1, just past the opening brace), count `{` and `}` one
character at a time and return the number of characters consumed when the
depth returns to zero (or the input runs out). -/
def scanEnd : List Char → Nat → Nat
  | _, 0 => 0
  | [], _ + 1 => 0
  | c :: rest, d + 1 =>
    1 + scanEnd rest (if c = braceOpen then d + 2 else if c = braceClose then d else d + 1)

/-- `source.slice(start, i - 1)`: everything the loop consumed except the
closing brace itself. -/
def braceBody (rest : List Char) : List Char :=
  rest.take (scanEnd rest 1 - 1)

/-- `extractMethodBody(source, methodName)`: locate the declaration, then cut
the body out by brace counting; `null` (here `none`) when no declaration
matches. -/
def extractMethodBody (source name : List Char) : Option (List Char) :=
  (findDeclRest name source).map braceBody

/-! ### Declarative brace-matching specification (for C1) -/

/-- Net brace balance of a string: occurrences of `{` minus occurrences of
`}`. -/
def braceBal (l : List Char) : Int :=
  (l.count braceOpen : Int) - (l.count braceClose : Int)

/-- `j` is the index of the closing brace matching the opening brace just
before `rest`: the running depth (starting at 1) stays positive on every
proper prefix up to `j` and returns to exactly zero after consuming the `}`
at `j`.  This is the claim's "counting `{` and `}` one at a time until depth
returns to zero", stated via prefix counts. -/
def BodyClose (rest : List Char) (j : Nat) : Prop :=
  rest.get? j = some braceClose ∧
    (∀ k, k ≤ j → 0 < 1 + braceBal (rest.take k)) ∧
    1 + braceBal (rest.take (j + 1)) = 0



theorem braceBal_nil : braceBal [] = 0 := by simp [braceBal]

theorem braceOpen_ne_close : ¬ braceOpen = braceClose := by decide

theorem braceClose_ne_open : ¬ braceClose = braceOpen := by decide

theorem braceBal_cons (c : Char) (l : List Char) :
    braceBal (c :: l) =
      ((if c = braceOpen then 1 else 0) - (if c = braceClose then 1 else 0)) + braceBal l := by
  unfold braceBal
  rw [List.count_cons, List.count_cons]
  by_cases h1 : c = braceOpen
  · subst h1
    simp [braceOpen_ne_close, braceClose_ne_open]
    try (push_cast; ring)
  · by_cases h2 : c = braceClose
    · subst h2
      simp [braceClose_ne_open, h1]
      try (push_cast; ring)
    · simp [h1, h2, Ne.symm h1, Ne.symm h2]
      try (push_cast; ring)

/-- The brace-counting loop consumes exactly `j + 1` characters when `j` is
the position where the running depth (started at `d`) first returns to 0. -/
theorem scanEnd_eq (rest : List Char) :
    ∀ d j : Nat, rest.get? j = some braceClose →
      (∀ k, k ≤ j → 0 < (d : Int) + braceBal (rest.take k)) →
      (d : Int) + braceBal (rest.take (j + 1)) = 0 →
      scanEnd rest d = j + 1 := by
  induction rest with
  | nil => intro d j hj _ _; simp at hj
  | cons c rest ih =>
    intro d j hj hpos hzero
    have hd0 : 0 < (d : Int) := by
      have := hpos 0 (Nat.zero_le _)
      simpa [braceBal] using this
    obtain ⟨d', rfl⟩ : ∃ d', d = d' + 1 := ⟨d - 1, by omega⟩
    cases j with
    | zero =>
      have hc : c = braceClose := by simpa using hj
      subst hc
      simp only [List.take_succ_cons, List.take_zero, braceBal_cons, braceBal_nil,
        if_neg braceClose_ne_open, if_pos rfl] at hzero
      have hd1 : d' = 0 := by push_cast at hzero; omega
      subst hd1
      simp [scanEnd, braceClose_ne_open]
    | succ j' =>
      have hj' : rest.get? j' = some braceClose := by simpa using hj
      have hstep : ∀ k : Nat,
          (((if c = braceOpen then d' + 2 else if c = braceClose then d' else d' + 1 : Nat)) : Int)
            + braceBal (rest.take k)
          = ((d' + 1 : Nat) : Int) + braceBal ((c :: rest).take (k + 1)) := by
        intro k
        rw [List.take_succ_cons, braceBal_cons]
        by_cases h1 : c = braceOpen
        · subst h1
          simp [braceOpen_ne_close]
          try (push_cast; ring)
        · by_cases h2 : c = braceClose
          · subst h2
            simp [braceClose_ne_open]
            try (push_cast; ring)
          · simp [h1, h2]
            try (push_cast; ring)
      have hpos' : ∀ k, k ≤ j' →
          0 < (((if c = braceOpen then d' + 2 else if c = braceClose then d' else d' + 1 : Nat)) : Int)
            + braceBal (rest.take k) := by
        intro k hk
        rw [hstep k]
        exact hpos (k + 1) (by omega)
      have hzero' :
          (((if c = braceOpen then d' + 2 else if c = braceClose then d' else d' + 1 : Nat)) : Int)
            + braceBal (rest.take (j' + 1)) = 0 := by
        rw [hstep (j' + 1)]
        exact hzero
      have hrec := ih (if c = braceOpen then d' + 2 else if c = braceClose then d' else d' + 1)
        j' hj' hpos' hzero'
      simp only [scanEnd]
      omega

/-- C1: for every source text in which the declaration regex finds the
requested member (so the suffix `rest` after its opening brace is defined)
and whose braces are balanced there (the declarative `BodyClose` condition:
counting `{` and `}` one at a time, the depth started at 1 first returns to
zero at the closing brace at index `j`), `extractMethodBody` returns exactly
the text strictly between the opening brace and that matching closing brace;
and whenever no declaration matches it returns `none` (the embedding is a
total function, so it cannot throw). -/
theorem extractMethodBody_spec (source name : List Char) :
    (∀ rest j, findDeclRest name source = some rest → BodyClose rest j →
      extractMethodBody source name = some (rest.take j)) ∧
    (findDeclRest name source = none → extractMethodBody source name = none) := by
  constructor
  · intro rest j hfind hclose
    obtain ⟨hj, hpos, hzero⟩ := hclose
    have hscan : scanEnd rest 1 = j + 1 := by
      apply scanEnd_eq rest 1 j hj
      · intro k hk
        have := hpos k hk
        simpa using this
      · simpa using hzero
    simp [extractMethodBody, hfind, braceBody, hscan]
  · intro h
    simp [extractMethodBody, h]

/-- Witness for C1 at a concrete source text. -/
theorem extractMethodBody_spec_witness :
    extractMethodBody ("public void foo() \x7b ab \x7d more").toList ("foo").toList =
      some ((" ab \x7d more").toList.take 4) := by
  apply (extractMethodBody_spec ("public void foo() \x7b ab \x7d more").toList
    ("foo").toList).1 ((" ab \x7d more").toList) 4
  · decide
  · unfold BodyClose
    decide

/-! ### Character-class and consumption lemmas -/

theorem wordChar_not_space {c : Char} (h : wordChar c = true) : jsSpace c = false := by
  unfold wordChar at h
  unfold jsSpace
  simp only [Bool.or_eq_true, Bool.and_eq_true, decide_eq_true_eq, beq_iff_eq] at h
  simp only [Bool.or_eq_false_iff, beq_eq_false_iff_ne, ne_eq]
  omega

theorem space_not_wordChar {c : Char} (h : jsSpace c = true) : wordChar c = false := by
  unfold jsSpace at h
  unfold wordChar
  simp only [Bool.or_eq_true, beq_iff_eq] at h
  simp only [Bool.or_eq_false_iff, Bool.and_eq_false_iff, beq_eq_false_iff_ne, ne_eq,
    decide_eq_false_iff_not, not_le]
  omega

theorem space_ne_char {c x : Char} (h : jsSpace c = true) (hx : jsSpace x = false) : ¬ c = x := by
  intro he
  subst he
  rw [h] at hx
  exact absurd hx (by decide)

theorem eatLit_append (tok r : List Char) : eatLit tok (tok ++ r) = some r := by
  unfold eatLit
  have hpre : tok.isPrefixOf (tok ++ r) = true := by
    induction tok with
    | nil => simp [List.isPrefixOf]
    | cons c t ih => simpa [List.isPrefixOf] using ih
  simp [hpre]

theorem eatChar_cons_self (c : Char) (r : List Char) : eatChar c (c :: r) = some r := by
  simp [eatChar]

theorem eatChar_cons_ne {c x : Char} (r : List Char) (h : ¬ x = c) :
    eatChar c (x :: r) = none := by
  simp [eatChar, h]

theorem skipWs_append {w : List Char} (hw : w.all jsSpace = true) (l : List Char) :
    skipWs (w ++ l) = skipWs l := by
  induction w with
  | nil => simp
  | cons c t ih =>
    simp only [List.all_cons, Bool.and_eq_true] at hw
    simp only [List.cons_append, skipWs, List.dropWhile_cons, hw.1, if_true]
    exact ih hw.2

theorem skipWs_cons_false {c : Char} (l : List Char) (h : jsSpace c = false) :
    skipWs (c :: l) = c :: l := by
  simp [skipWs, List.dropWhile_cons, h]

theorem eatWs1_append {w : List Char} (hw : w.all jsSpace = true) (hne : w ≠ [])
    (l : List Char) : eatWs1 (w ++ l) = some (skipWs l) := by
  cases w with
  | nil => exact absurd rfl hne
  | cons c t =>
    simp only [List.all_cons, Bool.and_eq_true] at hw
    simp only [List.cons_append, eatWs1, hw.1, if_true]
    rw [skipWs_append hw.2]

theorem takeWhile_all_append {p : Char → Bool} {t : List Char} (ht : t.all p = true)
    {x : Char} (hx : p x = false) (r : List Char) :
    (t ++ x :: r).takeWhile p = t := by
  induction t with
  | nil => simp [List.takeWhile_cons, hx]
  | cons c u ih =>
    simp only [List.all_cons, Bool.and_eq_true] at ht
    simp only [List.cons_append, List.takeWhile_cons, ht.1, if_true]
    rw [ih ht.2]

theorem dropWhile_all_append {p : Char → Bool} {t : List Char} (ht : t.all p = true)
    (l : List Char) : (t ++ l).dropWhile p = l.dropWhile p := by
  induction t with
  | nil => simp
  | cons c u ih =>
    simp only [List.all_cons, Bool.and_eq_true] at ht
    simp only [List.cons_append, List.dropWhile_cons, ht.1, if_true]
    exact ih ht.2

theorem eatRun_append {p : Char → Bool} {t : List Char} (ht : t.all p = true)
    (hne : t ≠ []) {x : Char} (hx : p x = false) (r : List Char) :
    eatRun p (t ++ x :: r) = some (t, x :: r) := by
  unfold eatRun
  rw [takeWhile_all_append ht hx r]
  cases t with
  | nil => exact absurd rfl hne
  | cons c u => simp [List.drop_left]

theorem eatOverrideOpt_cons_ne {x : Char} (r : List Char) (h : ¬ x = '@') :
    eatOverrideOpt (x :: r) = some (x :: r) := by
  unfold eatOverrideOpt
  split
  · rename_i heq
    rw [List.cons.injEq] at heq
    exact absurd heq.1 h
  · rfl

theorem eatGenericOpt_cons_ne {x : Char} (r : List Char) (h : ¬ x = '<') :
    eatGenericOpt (x :: r) = some (x :: r) := by
  unfold eatGenericOpt
  split
  · rename_i heq
    rw [List.cons.injEq] at heq
    exact absurd heq.1 h
  · rfl

theorem class_ne {p : Char → Bool} {c x : Char} (hc : p c = true) (hx : p x = false) :
    ¬ c = x := by
  intro h
  subst h
  rw [hc] at hx
  exact absurd hx (by decide)

theorem eatLit_head_ne {a x : Char} (tok r : List Char) (h : ¬ a = x) :
    eatLit (a :: tok) (x :: r) = none := by
  have : (a :: tok).isPrefixOf (x :: r) = (a == x && tok.isPrefixOf r) := rfl
  simp [eatLit, this, h]

theorem eatModifier_public (r : List Char) : eatModifier (litPublic ++ r) = some r := by
  unfold eatModifier
  rw [eatLit_append]

theorem eatModifier_protected (r : List Char) :
    eatModifier (litProtected ++ r) = some r := by
  unfold eatModifier
  have h1 : eatLit litPublic (litProtected ++ r) = none := rfl
  rw [h1, eatLit_append]

theorem eatParenBrace_construct {sp4 args sp5 : List Char} (tail : List Char)
    (hsp4 : sp4.all jsSpace = true) (hargs : args.all (fun c => c != ')') = true)
    (hsp5 : sp5.all jsSpace = true) :
    eatParenBrace (sp4 ++ '(' :: (args ++ ')' :: (sp5 ++ braceOpen :: tail))) = some tail := by
  unfold eatParenBrace
  rw [show skipWs (sp4 ++ '(' :: (args ++ ')' :: (sp5 ++ braceOpen :: tail)))
        = '(' :: (args ++ ')' :: (sp5 ++ braceOpen :: tail)) by
    rw [skipWs_append hsp4, skipWs_cons_false _ (by decide)]]
  rw [eatChar_cons_self]
  simp only [Option.bind_eq_bind, Option.some_bind]
  rw [dropWhile_all_append hargs]
  rw [show (')' :: (sp5 ++ braceOpen :: tail)).dropWhile (fun c => c != ')')
        = ')' :: (sp5 ++ braceOpen :: tail) by
    simp [List.dropWhile_cons]]
  rw [eatChar_cons_self]
  simp only [Option.bind_eq_bind, Option.some_bind]
  rw [show skipWs (sp5 ++ braceOpen :: tail) = braceOpen :: tail by
    rw [skipWs_append hsp5, skipWs_cons_false _ (by decide)]]
  rw [eatChar_cons_self]

theorem eatRetAndName_absent {name sp4 : List Char} (X : List Char)
    (hname : name.all wordChar = true) (hnn : name ≠ [])
    (hsp4 : sp4.all jsSpace = true) :
    eatRetAndName name (name ++ (sp4 ++ '(' :: X)) = some (sp4 ++ '(' :: X) := by
  have hpres : eatRetPresent name (name ++ (sp4 ++ '(' :: X)) = none := by
    unfold eatRetPresent
    cases sp4 with
    | nil =>
      rw [show name ++ ([] ++ '(' :: X) = name ++ '(' :: X by simp]
      rw [eatRun_append hname hnn (by decide) X]
      simp only [Option.bind_eq_bind, Option.some_bind]
      rw [eatGenericOpt_cons_ne _ (by decide)]
      simp only [Option.bind_eq_bind, Option.some_bind]
      have : eatWs1 ('(' :: X) = none := by simp [eatWs1]; decide
      rw [this]
      rfl
    | cons c4 sp4' =>
      simp only [List.all_cons, Bool.and_eq_true] at hsp4
      rw [show name ++ ((c4 :: sp4') ++ '(' :: X) = name ++ c4 :: (sp4' ++ '(' :: X) by simp]
      rw [eatRun_append hname hnn (space_not_wordChar hsp4.1) _]
      simp only [Option.bind_eq_bind, Option.some_bind]
      rw [eatGenericOpt_cons_ne _ (space_ne_char hsp4.1 (by decide))]
      simp only [Option.bind_eq_bind, Option.some_bind]
      rw [show eatWs1 (c4 :: (sp4' ++ '(' :: X)) = some (skipWs (sp4' ++ '(' :: X)) by
        simp [eatWs1, hsp4.1]]
      simp only [Option.bind_eq_bind, Option.some_bind]
      rw [skipWs_append hsp4.2, skipWs_cons_false _ (by decide)]
      cases name with
      | nil => exact absurd rfl hnn
      | cons n0 name' =>
        simp only [List.all_cons, Bool.and_eq_true] at hname
        exact eatLit_head_ne name' _ (class_ne hname.1 (by decide))
  unfold eatRetAndName
  rw [hpres, eatLit_append]

theorem eatGenericOpt_cons_lt (r : List Char) :
    eatGenericOpt ('<' :: r) = (eatRun (fun c => c != '>') r).bind (fun pr => eatChar '>' pr.2) :=
  rfl

theorem eatRetAndName_present {name w g sp2 : List Char} (genPresent : Bool) (X : List Char)
    (hname : name.all wordChar = true) (hnn : name ≠ [])
    (hw : w.all wordChar = true) (hwn : w ≠ [])
    (hg : g.all (fun c => c != '>') = true) (hgn : g ≠ [])
    (hsp2 : sp2.all jsSpace = true) (hsp2n : sp2 ≠ []) :
    eatRetAndName name
      (w ++ ((cond genPresent ('<' :: (g ++ ['>'])) []) ++ (sp2 ++ (name ++ X))))
      = some X := by
  have hpres : eatRetPresent name
      (w ++ ((cond genPresent ('<' :: (g ++ ['>'])) []) ++ (sp2 ++ (name ++ X))))
      = some X := by
    unfold eatRetPresent
    obtain ⟨c2, sp2', rfl⟩ : ∃ c2 sp2', sp2 = c2 :: sp2' := by
      cases sp2 with
      | nil => exact absurd rfl hsp2n
      | cons a b => exact ⟨a, b, rfl⟩
    simp only [List.all_cons, Bool.and_eq_true] at hsp2
    cases genPresent with
    | false =>
      rw [show w ++ ((cond false ('<' :: (g ++ ['>'])) []) ++ ((c2 :: sp2') ++ (name ++ X)))
            = w ++ c2 :: (sp2' ++ (name ++ X)) by simp]
      rw [eatRun_append hw hwn (space_not_wordChar hsp2.1) _]
      simp only [Option.bind_eq_bind, Option.some_bind]
      rw [eatGenericOpt_cons_ne _ (space_ne_char hsp2.1 (by decide))]
      simp only [Option.bind_eq_bind, Option.some_bind]
      rw [show eatWs1 (c2 :: (sp2' ++ (name ++ X))) = some (skipWs (sp2' ++ (name ++ X))) by
        simp [eatWs1, hsp2.1]]
      simp only [Option.bind_eq_bind, Option.some_bind]
      rw [skipWs_append hsp2.2]
      cases name with
      | nil => exact absurd rfl hnn
      | cons n0 name' =>
        simp only [List.all_cons, Bool.and_eq_true] at hname
        rw [show skipWs ((n0 :: name') ++ X) = (n0 :: name') ++ X by
          rw [List.cons_append, skipWs_cons_false _ (wordChar_not_space hname.1)]]
        exact eatLit_append _ _
    | true =>
      rw [show w ++ ((cond true ('<' :: (g ++ ['>'])) []) ++ ((c2 :: sp2') ++ (name ++ X)))
            = w ++ '<' :: (g ++ ['>'] ++ ((c2 :: sp2') ++ (name ++ X))) by simp]
      rw [eatRun_append hw hwn (by decide) _]
      simp only [Option.bind_eq_bind, Option.some_bind]
      rw [show eatGenericOpt ('<' :: (g ++ ['>'] ++ ((c2 :: sp2') ++ (name ++ X))))
            = some ((c2 :: sp2') ++ (name ++ X)) by
        rw [show g ++ ['>'] ++ ((c2 :: sp2') ++ (name ++ X))
              = g ++ '>' :: ((c2 :: sp2') ++ (name ++ X)) by simp]
        rw [eatGenericOpt_cons_lt]
        rw [eatRun_append hg hgn (by decide) _]
        simp only [Option.bind_eq_bind, Option.some_bind]
        rw [eatChar_cons_self]]
      simp only [Option.bind_eq_bind, Option.some_bind]
      rw [show eatWs1 (c2 :: sp2' ++ (name ++ X)) = some (skipWs (sp2' ++ (name ++ X))) by
        simp [eatWs1, hsp2.1]]
      simp only [Option.bind_eq_bind, Option.some_bind]
      rw [skipWs_append hsp2.2]
      cases name with
      | nil => exact absurd rfl hnn
      | cons n0 name' =>
        simp only [List.all_cons, Bool.and_eq_true] at hname
        rw [show skipWs ((n0 :: name') ++ X) = (n0 :: name') ++ X by
          rw [List.cons_append, skipWs_cons_false _ (wordChar_not_space hname.1)]]
        exact eatLit_append _ _
  unfold eatRetAndName
  rw [hpres]

theorem skipWs_eq_self_of_head {t : List Char} (ht : t.all wordChar = true) (htn : t ≠ [])
    (X : List Char) : skipWs (t ++ X) = t ++ X := by
  cases t with
  | nil => exact absurd rfl htn
  | cons a b =>
    simp only [List.all_cons, Bool.and_eq_true] at ht
    simp only [List.cons_append]
    exact skipWs_cons_false _ (wordChar_not_space ht.1)

/-- The declaration regex accepts every declaration assembled from an optional
`@Override`, a mandatory `public`/`protected` modifier, an optional
(possibly generic) return type, the method name, an argument list free of
`)`, and the opening brace; the suffix after the brace is returned. -/
theorem matchDeclAt_construct
    (ovrPresent retPresent genPresent : Bool)
    {sp0 mod sp1 w g sp2 name sp4 args sp5 : List Char} (rest : List Char)
    (hmod : mod = litPublic ∨ mod = litProtected)
    (hsp0 : sp0.all jsSpace = true) (hsp0n : sp0 ≠ [])
    (hsp1 : sp1.all jsSpace = true) (hsp1n : sp1 ≠ [])
    (hname : name.all wordChar = true) (hnn : name ≠ [])
    (hw : w.all wordChar = true) (hwn : w ≠ [])
    (hg : g.all (fun c => c != '>') = true) (hgn : g ≠ [])
    (hsp2 : sp2.all jsSpace = true) (hsp2n : sp2 ≠ [])
    (hsp4 : sp4.all jsSpace = true)
    (hargs : args.all (fun c => c != ')') = true)
    (hsp5 : sp5.all jsSpace = true) :
    matchDeclAt name
      ((cond ovrPresent (litOverride ++ sp0) []) ++
        (mod ++ (sp1 ++
          ((cond retPresent (w ++ ((cond genPresent ('<' :: (g ++ ['>'])) []) ++ sp2)) []) ++
            (name ++ (sp4 ++ '(' :: (args ++ ')' :: (sp5 ++ braceOpen :: rest))))))))
      = some rest := by
  unfold matchDeclAt
  set Z := (cond retPresent (w ++ ((cond genPresent ('<' :: (g ++ ['>'])) []) ++ sp2)) []) ++
      (name ++ (sp4 ++ '(' :: (args ++ ')' :: (sp5 ++ braceOpen :: rest)))) with hZdef
  have hsuf : (eatRetAndName name Z).bind eatParenBrace = some rest := by
    rw [hZdef]
    cases retPresent with
    | false =>
      simp only [cond_false, List.nil_append]
      rw [eatRetAndName_absent _ hname hnn hsp4]
      simp only [Option.bind_eq_bind, Option.some_bind]
      exact eatParenBrace_construct rest hsp4 hargs hsp5
    | true =>
      simp only [cond_true, List.append_assoc]
      rw [eatRetAndName_present genPresent _ hname hnn hw hwn hg hgn hsp2 hsp2n]
      simp only [Option.bind_eq_bind, Option.some_bind]
      exact eatParenBrace_construct rest hsp4 hargs hsp5
  have hws : skipWs Z = Z := by
    rw [hZdef]
    cases retPresent with
    | false =>
      simp only [cond_false, List.nil_append]
      exact skipWs_eq_self_of_head hname hnn _
    | true =>
      simp only [cond_true, List.append_assoc]
      exact skipWs_eq_self_of_head hw hwn _
  rcases hmod with rfl | rfl <;> cases ovrPresent
  · -- public, @Override absent
    simp only [cond_false, List.nil_append]
    rw [show eatOverrideOpt (litPublic ++ (sp1 ++ Z)) = some (litPublic ++ (sp1 ++ Z)) from rfl]
    simp only [Option.bind_eq_bind, Option.some_bind]
    rw [eatModifier_public]
    simp only [Option.bind_eq_bind, Option.some_bind]
    rw [eatWs1_append hsp1 hsp1n, hws]
    simp only [Option.bind_eq_bind, Option.some_bind]
    exact hsuf
  · -- public, @Override present
    simp only [cond_true, List.append_assoc]
    rw [show eatOverrideOpt (litOverride ++ (sp0 ++ (litPublic ++ (sp1 ++ Z))))
          = eatWs1 (sp0 ++ (litPublic ++ (sp1 ++ Z))) by
      unfold eatOverrideOpt litOverride
      simp [eatLit, List.isPrefixOf]]
    rw [eatWs1_append hsp0 hsp0n]
    rw [show skipWs (litPublic ++ (sp1 ++ Z)) = litPublic ++ (sp1 ++ Z) from
      skipWs_cons_false _ (by decide)]
    simp only [Option.bind_eq_bind, Option.some_bind]
    rw [eatModifier_public]
    simp only [Option.bind_eq_bind, Option.some_bind]
    rw [eatWs1_append hsp1 hsp1n, hws]
    simp only [Option.bind_eq_bind, Option.some_bind]
    exact hsuf
  · -- protected, @Override absent
    simp only [cond_false, List.nil_append]
    rw [show eatOverrideOpt (litProtected ++ (sp1 ++ Z)) = some (litProtected ++ (sp1 ++ Z))
          from rfl]
    simp only [Option.bind_eq_bind, Option.some_bind]
    rw [eatModifier_protected]
    simp only [Option.bind_eq_bind, Option.some_bind]
    rw [eatWs1_append hsp1 hsp1n, hws]
    simp only [Option.bind_eq_bind, Option.some_bind]
    exact hsuf
  · -- protected, @Override present
    simp only [cond_true, List.append_assoc]
    rw [show eatOverrideOpt (litOverride ++ (sp0 ++ (litProtected ++ (sp1 ++ Z))))
          = eatWs1 (sp0 ++ (litProtected ++ (sp1 ++ Z))) by
      unfold eatOverrideOpt litOverride
      simp [eatLit, List.isPrefixOf]]
    rw [eatWs1_append hsp0 hsp0n]
    rw [show skipWs (litProtected ++ (sp1 ++ Z)) = litProtected ++ (sp1 ++ Z) from
      skipWs_cons_false _ (by decide)]
    simp only [Option.bind_eq_bind, Option.some_bind]
    rw [eatModifier_protected]
    simp only [Option.bind_eq_bind, Option.some_bind]
    rw [eatWs1_append hsp1 hsp1n, hws]
    simp only [Option.bind_eq_bind, Option.some_bind]
    exact hsuf

theorem findFirstF_of_head {α : Type} (m : List Char → Option α) (fuel : Nat)
    {s : List Char} {a : α} (h : m s = some a) (hs : s ≠ []) :
    findFirstF m (fuel + 1) s = some a := by
  cases s with
  | nil => exact absurd rfl hs
  | cons c r => simp [findFirstF, h]

theorem scanEnd_nobrace {body : List Char}
    (h : body.all (fun c => !(c == braceOpen) && !(c == braceClose)) = true)
    (r : List Char) : scanEnd (body ++ braceClose :: r) 1 = body.length + 1 := by
  induction body with
  | nil => simp [scanEnd, braceClose_ne_open]
  | cons c rest ih =>
    simp only [List.all_cons, Bool.and_eq_true, Bool.not_eq_true', beq_eq_false_iff_ne,
      ne_eq] at h
    have hx : scanEnd (rest.append (braceClose :: r)) 1 = rest.length + 1 := ih h.2
    simp only [List.cons_append, scanEnd, if_neg h.1.1, if_neg h.1.2]
    simp only [List.length_cons, Nat.zero_add]
    omega

/-- C5 (amended): the Method-Body Locator finds a member declaration carrying a
`public` or `protected` access modifier regardless of whether the `@Override`
prefix and the (possibly generic) return-type prefix are present, and returns
its brace-delimited body.  (The access modifier itself is mandatory in the
regex: the claim's "a declaration written without a public/protected modifier
is still located" fails, see the counterexample.) -/
theorem extractMethodBody_locates_decl
    (ovrPresent retPresent genPresent : Bool)
    {sp0 mod sp1 w g sp2 name sp4 args sp5 : List Char} (body tail : List Char)
    (hmod : mod = litPublic ∨ mod = litProtected)
    (hsp0 : sp0.all jsSpace = true) (hsp0n : sp0 ≠ [])
    (hsp1 : sp1.all jsSpace = true) (hsp1n : sp1 ≠ [])
    (hname : name.all wordChar = true) (hnn : name ≠ [])
    (hw : w.all wordChar = true) (hwn : w ≠ [])
    (hg : g.all (fun c => c != '>') = true) (hgn : g ≠ [])
    (hsp2 : sp2.all jsSpace = true) (hsp2n : sp2 ≠ [])
    (hsp4 : sp4.all jsSpace = true)
    (hargs : args.all (fun c => c != ')') = true)
    (hsp5 : sp5.all jsSpace = true)
    (hbody : body.all (fun c => !(c == braceOpen) && !(c == braceClose)) = true) :
    extractMethodBody
      ((cond ovrPresent (litOverride ++ sp0) []) ++
        (mod ++ (sp1 ++
          ((cond retPresent (w ++ ((cond genPresent ('<' :: (g ++ ['>'])) []) ++ sp2)) []) ++
            (name ++ (sp4 ++ '(' :: (args ++ ')' ::
              (sp5 ++ braceOpen :: (body ++ braceClose :: tail)))))))))
      name = some body := by
  have hm := matchDeclAt_construct ovrPresent retPresent genPresent (body ++ braceClose :: tail)
    hmod hsp0 hsp0n hsp1 hsp1n hname hnn hw hwn hg hgn hsp2 hsp2n hsp4 hargs hsp5
  have hmodne : mod ≠ [] := by
    rcases hmod with rfl | rfl <;> decide
  have hsne : (cond ovrPresent (litOverride ++ sp0) []) ++
      (mod ++ (sp1 ++
        ((cond retPresent (w ++ ((cond genPresent ('<' :: (g ++ ['>'])) []) ++ sp2)) []) ++
          (name ++ (sp4 ++ '(' :: (args ++ ')' ::
            (sp5 ++ braceOpen :: (body ++ braceClose :: tail)))))))) ≠ [] := by
    simp [List.append_eq_nil, hmodne]
  unfold extractMethodBody findDeclRest
  rw [findFirstF_of_head _ _ hm hsne]
  simp only [Option.map_some']
  unfold braceBody
  rw [scanEnd_nobrace hbody tail]
  simp only [Nat.add_sub_cancel]
  rw [List.take_left]

/-- Witness for C5's amended theorem: a concrete `@Override protected
List<String> getPanels(int x) { y }` declaration is located. -/
theorem extractMethodBody_locates_decl_witness :
    extractMethodBody
      ((cond true (litOverride ++ [' ']) []) ++
        (litProtected ++ ([' '] ++
          ((cond true (("List").toList ++
            ((cond true ('<' :: (("String").toList ++ ['>'])) []) ++ [' '])) []) ++
            (("getPanels").toList ++ ([' '] ++ '(' :: (("int x").toList ++ ')' ::
              ([' '] ++ braceOpen :: ((" y ").toList ++ braceClose :: ("z").toList))))))))) 
      ("getPanels").toList = some ((" y ").toList) :=
  extractMethodBody_locates_decl true true true (" y ").toList ("z").toList
    (Or.inr rfl) (by decide) (by decide) (by decide) (by decide) (by decide) (by decide)
    (by decide) (by decide) (by decide) (by decide) (by decide) (by decide) (by decide)
    (by decide) (by decide) (by decide)

/-- Counterexample to C5 as stated: the source text `void foo() { x }`
contains a member declaration of `foo` written without an access modifier,
yet the locator does not find it (the regex requires `public` or
`protected`), returning `none` rather than the body. -/
theorem extractMethodBody_modifier_cex :
    extractMethodBody ("void foo() \x7b x \x7d").toList ("foo").toList = none := by
  decide

/-! ## Literal-String Reconstructor (`readConcatenatedString`)

The script defines `readConcatenatedString(openQuoteIndex)` as a closure over
`body`; here it is a function of the suffix of `body` that starts at the
opening quote.  `readFragment` is the inner `while` loop (starting just past
an opening quote): a backslash consumes itself and the following character
without emitting anything (`i += 2; continue`), a quote ends the fragment,
any other character is emitted; it returns the fragment content and the
suffix after the closing quote.  The one-element case unrolls the loop exit
at the end of input.  `readConcatF` is the outer loop: after each fragment it
skips whitespace, looks for `+`, skips whitespace, and continues only if an
opening quote follows (which the next iteration then skips); one unit of fuel
per outer iteration, and each iteration consumes at least the opening quote,
so `s.length` fuel suffices. -/

def readFragment : List Char → List Char × List Char
  | [] => ([], [])
  | [c] =>
    if c = '\\' then ([], [])
    else if c = '"' then ([], [])
    else ([c], [])
  | c :: c2 :: rest =>
    if c = '\\' then readFragment rest
    else if c = '"' then ([], c2 :: rest)
    else
      let p := readFragment (c2 :: rest)
      (c :: p.1, p.2)

def readConcatF : Nat → List Char → List Char
  | 0, _ => []
  | _ + 1, [] => []
  | fuel + 1, _ :: rest =>
    let p := readFragment rest
    let r2 := p.2.dropWhile jsSpace
    if r2.head? = some '+' then
      let r4 := (r2.drop 1).dropWhile jsSpace
      if r4.head? = some '"' then p.1 ++ readConcatF fuel r4 else p.1
    else p.1

/-- `readConcatenatedString` started at an opening quote: `s` is the suffix of
the method body beginning with that quote. -/
def readConcatenatedString (s : List Char) : List Char :=
  readConcatF s.length s

/-! ### Specification-side definitions for C3 (from the spec's words) -/

/-- A well-formed quoted fragment content: every backslash escapes a following
character inside the fragment, and no unescaped quote occurs. -/
def fragmentOk : List Char → Bool
  | [] => true
  | [c] =>
    if c = '\\' then false
    else if c = '"' then false
    else true
  | c :: c2 :: rest =>
    if c = '\\' then fragmentOk rest
    else if c = '"' then false
    else fragmentOk (c2 :: rest)

/-- Escape resolution as the spec describes it ("a backslash ... consumes the
following character ...; any one character is skipped"): each
backslash-plus-character pair is consumed, every other character is kept. -/
def resolveEscapes : List Char → List Char
  | [] => []
  | [c] => if c = '\\' then [] else [c]
  | c :: c2 :: rest =>
    if c = '\\' then resolveEscapes rest
    else c :: resolveEscapes (c2 :: rest)

/-- The source text of fragments 2..N of a concatenation: for each fragment,
whitespace, `+`, whitespace, then the quoted fragment; `rest` follows the
final quote. -/
def encodePieces : List (List Char × List Char × List Char) → List Char → List Char
  | [], rest => rest
  | (w1, w2, f) :: more, rest =>
    w1 ++ '+' :: (w2 ++ '"' :: (f ++ '"' :: encodePieces more rest))

theorem readFragment_quote (r : List Char) : readFragment ('"' :: r) = ([], r) := by
  cases r <;> simp [readFragment]

theorem readFragment_append :
    ∀ (f : List Char), fragmentOk f = true → ∀ r : List Char,
      readFragment (f ++ '"' :: r) = (resolveEscapes f, r) := by
  have H : ∀ (n : Nat) (f : List Char), f.length ≤ n → fragmentOk f = true →
      ∀ r : List Char, readFragment (f ++ '"' :: r) = (resolveEscapes f, r) := by
    intro n
    induction n with
    | zero =>
      intro f hf _ r
      have hf0 : f = [] := List.eq_nil_of_length_eq_zero (Nat.le_zero.mp hf)
      subst hf0
      simpa [resolveEscapes] using readFragment_quote r
    | succ n ihn =>
      intro f hf h r
      cases f with
      | nil => simpa [resolveEscapes] using readFragment_quote r
      | cons c rest =>
        cases rest with
        | nil =>
          have hc1 : ¬ c = '\\' := by
            intro he; subst he; exact absurd h (by decide)
          have hc2 : ¬ c = '"' := by
            intro he; subst he; exact absurd h (by decide)
          simp only [List.cons_append, List.nil_append]
          rw [show readFragment (c :: '"' :: r)
                = (c :: (readFragment ('"' :: r)).1, (readFragment ('"' :: r)).2) by
            simp [readFragment, hc1, hc2]]
          rw [readFragment_quote]
          simp [resolveEscapes, hc1]
        | cons c2 rest2 =>
          by_cases hc1 : c = '\\'
          · subst hc1
            have h' : fragmentOk rest2 = true := by
              simpa [fragmentOk] using h
            have hlen : rest2.length ≤ n := by
              simp only [List.length_cons] at hf
              omega
            have hr := ihn rest2 hlen h' r
            calc readFragment (('\\' :: c2 :: rest2) ++ '"' :: r)
                = readFragment (rest2 ++ '"' :: r) := by simp [readFragment]
              _ = (resolveEscapes rest2, r) := hr
              _ = (resolveEscapes ('\\' :: c2 :: rest2), r) := by simp [resolveEscapes]
          · by_cases hc2 : c = '"'
            · subst hc2
              rw [show fragmentOk ('"' :: c2 :: rest2) = false by simp [fragmentOk]] at h
              exact absurd h (by decide)
            · have h' : fragmentOk (c2 :: rest2) = true := by
                simpa [fragmentOk, hc1, hc2] using h
              have hlen : (c2 :: rest2).length ≤ n := by
                simp only [List.length_cons] at hf ⊢
                omega
              have hr := ihn (c2 :: rest2) hlen h' r
              calc readFragment ((c :: c2 :: rest2) ++ '"' :: r)
                  = (c :: (readFragment ((c2 :: rest2) ++ '"' :: r)).1,
                      (readFragment ((c2 :: rest2) ++ '"' :: r)).2) := by
                    simp [readFragment, hc1, hc2]
                _ = (c :: resolveEscapes (c2 :: rest2), r) := by rw [hr]
                _ = (resolveEscapes (c :: c2 :: rest2), r) := by
                    simp [resolveEscapes, hc1]
  intro f h r
  exact H f.length f (le_refl _) h r

theorem encodePieces_length_ge (parts : List (List Char × List Char × List Char))
    (rest : List Char) : parts.length ≤ (encodePieces parts rest).length := by
  induction parts with
  | nil => simp [encodePieces]
  | cons p more ih =>
    obtain ⟨w1, w2, f⟩ := p
    simp only [encodePieces, List.length_append, List.length_cons]
    omega

theorem readConcat_encode :
    ∀ (parts : List (List Char × List Char × List Char)) (fuel : Nat)
      (f0 rest : List Char),
      parts.length < fuel →
      fragmentOk f0 = true →
      (∀ p ∈ parts, p.1.all jsSpace = true ∧ p.2.1.all jsSpace = true ∧
        fragmentOk p.2.2 = true) →
      (rest.dropWhile jsSpace).head? ≠ some '+' →
      readConcatF fuel ('"' :: (f0 ++ '"' :: encodePieces parts rest))
        = resolveEscapes f0 ++ (parts.map (fun p => resolveEscapes p.2.2)).flatten := by
  intro parts
  induction parts with
  | nil =>
    intro fuel f0 rest hfuel h0 _ hr
    obtain ⟨m, rfl⟩ : ∃ m, fuel = m + 1 := ⟨fuel - 1, by omega⟩
    simp only [readConcatF, encodePieces]
    rw [readFragment_append f0 h0 rest]
    simp only [if_neg hr, List.map_nil, List.flatten_nil, List.append_nil]
  | cons part more ih =>
    intro fuel f0 rest hfuel h0 hp hr
    obtain ⟨m, rfl⟩ : ∃ m, fuel = m + 1 := ⟨fuel - 1, by omega⟩
    obtain ⟨w1, w2, f1⟩ := part
    have hpart := hp (w1, w2, f1) (by simp)
    have hw1 : w1.all jsSpace = true := hpart.1
    have hw2 : w2.all jsSpace = true := hpart.2.1
    have hf1 : fragmentOk f1 = true := hpart.2.2
    simp only [readConcatF, encodePieces]
    rw [readFragment_append f0 h0]
    have e2 : ((w1 ++ '+' :: (w2 ++ '"' :: (f1 ++ '"' :: encodePieces more rest))) :
        List Char).dropWhile jsSpace
        = '+' :: (w2 ++ '"' :: (f1 ++ '"' :: encodePieces more rest)) := by
      rw [show ((w1 ++ '+' :: (w2 ++ '"' :: (f1 ++ '"' :: encodePieces more rest))) :
            List Char).dropWhile jsSpace
            = skipWs (w1 ++ '+' :: (w2 ++ '"' :: (f1 ++ '"' :: encodePieces more rest)))
          from rfl]
      rw [skipWs_append hw1, skipWs_cons_false _ (by decide)]
    have e4 : ((w2 ++ '"' :: (f1 ++ '"' :: encodePieces more rest)) :
        List Char).dropWhile jsSpace
        = '"' :: (f1 ++ '"' :: encodePieces more rest) := by
      rw [show ((w2 ++ '"' :: (f1 ++ '"' :: encodePieces more rest)) :
            List Char).dropWhile jsSpace
            = skipWs (w2 ++ '"' :: (f1 ++ '"' :: encodePieces more rest)) from rfl]
      rw [skipWs_append hw2, skipWs_cons_false _ (by decide)]
    simp only [e2, List.head?_cons, List.drop_succ_cons, List.drop_zero, if_pos rfl, e4]
    have hmore : ∀ p ∈ more, p.1.all jsSpace = true ∧ p.2.1.all jsSpace = true ∧
        fragmentOk p.2.2 = true := by
      intro p hpm
      exact hp p (by simp [hpm])
    have hrec := ih m f1 rest (by simp only [List.length_cons] at hfuel; omega) hf1 hmore hr
    rw [hrec]
    simp [List.append_assoc]

/-- C3: started at the opening quote of the first of `N ≥ 1` quoted fragments
joined by `+` with arbitrary whitespace around each `+`, the Literal-String
Reconstructor returns exactly the concatenation of the fragment contents with
escape sequences resolved (each backslash consumes itself and the following
character, per the spec's "any one character is skipped"), with no inserted
separator and independently of the whitespace between fragments.  `rest` is
whatever follows the final fragment, provided it does not continue the
concatenation (after whitespace it does not start with `+`). -/
theorem readConcat_spec (f0 : List Char)
    (parts : List (List Char × List Char × List Char)) (rest : List Char)
    (h0 : fragmentOk f0 = true)
    (hp : ∀ p ∈ parts, p.1.all jsSpace = true ∧ p.2.1.all jsSpace = true ∧
      fragmentOk p.2.2 = true)
    (hr : (rest.dropWhile jsSpace).head? ≠ some '+') :
    readConcatenatedString ('"' :: (f0 ++ '"' :: encodePieces parts rest))
      = resolveEscapes f0 ++ (parts.map (fun p => resolveEscapes p.2.2)).flatten := by
  apply readConcat_encode parts _ f0 rest ?_ h0 hp hr
  have h1 := encodePieces_length_ge parts rest
  simp only [List.length_cons, List.length_append]
  omega

/-- Witness for C3: `"Talk\x to " + "the chef."` (with whitespace around the
`+`) reconstructs to `Talk to the chef.` — three fragments' worth of
machinery at N = 2, the escaped pair `\x` consumed. -/
theorem readConcat_spec_witness :
    readConcatenatedString
      ('"' :: ((("Talk\\x to ").toList) ++ '"' ::
        encodePieces [([' '], [' '], ("the chef.").toList)] ((");").toList)))
      = ("Talk to the chef.").toList := by
  have h := readConcat_spec (("Talk\\x to ").toList)
    [([' '], [' '], ("the chef.").toList)] ((");").toList)
    (by decide) (by decide) (by decide)
  exact h

/-! ## Data model (src/types/QuestData.ts) -/

structure WorldPoint where
  x : Int
  y : Int
  plane : Int
deriving DecidableEq

structure QuestStep where
  stepDescription : List Char
  worldpoint : WorldPoint
deriving DecidableEq

structure ExperienceReward where
  skill : List Char
  xp : Int
deriving DecidableEq

structure LampReward where
  skills : List Char
  value : Int
  quantity : Int
deriving DecidableEq

structure SkillRequirement where
  skillName : List Char
  level : Int
deriving DecidableEq

structure PanelData where
  panelName : List Char
  stepVarNames : List (List Char)
deriving DecidableEq

structure QuestPanel where
  panelName : List Char
  steps : List QuestStep
deriving DecidableEq

structure QuestData where
  name : List Char
  questPoints : Int
  experienceRewards : List ExperienceReward
  lampRewards : Option LampReward
  skillRequirements : List SkillRequirement
  questRequirements : List (List Char)
  questPointRequirement : Option Int
  itemRequirements : List (List Char)
  steps : List QuestPanel
deriving DecidableEq

/-! ## Record Assembler (`buildSteps`) -/

/-- The inner loop of `buildSteps`: look each referenced variable up in the
step table, keep it when found, skip it silently when not. -/
def buildStepsInner (stepData : List (List Char × QuestStep)) :
    List (List Char) → List QuestStep
  | [] => []
  | v :: vs =>
    match mapGet stepData v with
    | some d => ⟨d.stepDescription, d.worldpoint⟩ :: buildStepsInner stepData vs
    | none => buildStepsInner stepData vs

/-- `buildSteps(panels, stepData)`: one output panel per input grouping, in
order, with the resolved steps. -/
def buildSteps (panels : List PanelData) (stepData : List (List Char × QuestStep)) :
    List QuestPanel :=
  match panels with
  | [] => []
  | p :: ps => ⟨p.panelName, buildStepsInner stepData p.stepVarNames⟩ :: buildSteps ps stepData

theorem buildStepsInner_filterMap (stepData : List (List Char × QuestStep))
    (refs : List (List Char)) :
    buildStepsInner stepData refs = refs.filterMap (fun v => mapGet stepData v) := by
  induction refs with
  | nil => simp [buildStepsInner]
  | cons r rs ih =>
    cases h : mapGet stepData r with
    | none => simp [buildStepsInner, h, ih]
    | some d => simp [buildStepsInner, h, ih]

theorem buildStepsInner_drop_dangling (stepData : List (List Char × QuestStep))
    (v : List Char) (hv : mapGet stepData v = none) (refs : List (List Char)) :
    buildStepsInner stepData refs
      = buildStepsInner stepData (refs.filter (fun w => !(decide (w = v)))) := by
  induction refs with
  | nil => simp
  | cons r rs ih =>
    by_cases hrv : r = v
    · subst hrv
      simp only [List.filter_cons]
      rw [if_neg (by simp : ¬ ((!decide True) = true))]
      simp only [buildStepsInner, hv]
      exact ih
    · simp only [List.filter_cons]
      rw [if_pos (by simp [hrv] : (!decide (r = v)) = true)]
      cases h : mapGet stepData r with
      | none => simp [buildStepsInner, h, ih]
      | some d => simp [buildStepsInner, h, ih]

/-- C7: the Record Assembler includes, for each referenced variable in source
order, the matching step record and silently skips dangling references:
(1) each panel's step list is exactly the `filterMap` of the lookups, in
reference order; (2) a dangling reference (a variable absent from the step
table) can be deleted from every panel without changing the output, so it
affects neither the order nor the content of resolved sibling references;
(3) every panel, with its name, still appears in the output (same names in
the same order, hence a panel with a dangling reference merely gets a
shorter step list). -/
theorem buildSteps_spec (panels : List PanelData) (stepData : List (List Char × QuestStep)) :
    (buildSteps panels stepData
      = panels.map (fun p => ⟨p.panelName,
          p.stepVarNames.filterMap (fun v => mapGet stepData v)⟩)) ∧
    (∀ v, mapGet stepData v = none →
      buildSteps panels stepData
        = buildSteps (panels.map (fun p => ⟨p.panelName,
            p.stepVarNames.filter (fun w => !(decide (w = v)))⟩)) stepData) ∧
    ((buildSteps panels stepData).map (fun q => q.panelName)
      = panels.map (fun p => p.panelName)) := by
  refine ⟨?_, ?_, ?_⟩
  · induction panels with
    | nil => simp [buildSteps]
    | cons p ps ih => simp [buildSteps, ih, buildStepsInner_filterMap]
  · intro v hv
    induction panels with
    | nil => simp [buildSteps]
    | cons p ps ih =>
      simp only [buildSteps, List.map_cons]
      rw [← buildStepsInner_drop_dangling stepData v hv, ih]
  · induction panels with
    | nil => simp [buildSteps]
    | cons p ps ih => simp [buildSteps, ih]

/-- Witness for C7: dropping the dangling reference `missing` from the panel
leaves the assembled output unchanged. -/
theorem buildSteps_spec_witness :
    buildSteps [⟨("Starting off").toList, [("step1").toList, ("missing").toList]⟩]
        [(("step1").toList, ⟨("Talk").toList, ⟨1, 2, 0⟩⟩)]
      = buildSteps [⟨("Starting off").toList, [("step1").toList]⟩]
        [(("step1").toList, ⟨("Talk").toList, ⟨1, 2, 0⟩⟩)] := by
  have h := (buildSteps_spec
    [⟨("Starting off").toList, [("step1").toList, ("missing").toList]⟩]
    [(("step1").toList, ⟨("Talk").toList, ⟨1, 2, 0⟩⟩)]).2.1
    (("missing").toList) (by decide)
  exact h

/-! ## Symbolic Reference Resolver (`parseSetupRequirements` / `resolve`) -/

def litNew : List Char := "new".toList

def litItemRequirement : List Char := "ItemRequirement".toList

def litHighlighted : List Char := "highlighted".toList

def litAlsoCheckBank : List Char := "alsoCheckBank".toList

/-- One attempt of the requirement-assignment regex
`([a-zA-Z_][a-zA-Z0-9_]*)\s*=\s*new\s+ItemRequirement\s*\(\s*"([^"]*)"`
anchored at the start of `s`; yields `(variable, display string)` and the
suffix after the closing quote.  Deterministic: the identifier run is maximal
(`=`/whitespace are not word characters), `\s+` is followed by `I`, and
`[^"]*` stops at the first quote. -/
def matchItemReq (s : List Char) : Option ((List Char × List Char) × List Char) := do
  let (v, s1) ← eatIdent s
  let s2 ← eatChar '=' (skipWs s1)
  let s3 ← eatLit litNew (skipWs s2)
  let s4 ← eatWs1 s3
  let s5 ← eatLit litItemRequirement s4
  let s6 ← eatChar '(' (skipWs s5)
  let s7 ← eatChar '"' (skipWs s6)
  let disp := s7.takeWhile (fun c => c != '"')
  let s8 ← eatChar '"' (s7.drop disp.length)
  some ((v, disp), s8)

/-- One attempt of the alias regex
`([a-zA-Z_][a-zA-Z0-9_]*)\s*=\s*([a-zA-Z_][a-zA-Z0-9_]*)\s*\.(?:highlighted|alsoCheckBank)\s*\(\s*\)`
anchored at the start of `s`; yields `(alias, base)` and the suffix after the
closing parenthesis.  Deterministic: identifier runs are maximal, the two
method-name literals start with different letters, and each literal must be
followed by `\s*\(`. -/
def matchAlias (s : List Char) : Option ((List Char × List Char) × List Char) := do
  let (v1, s1) ← eatIdent s
  let s2 ← eatChar '=' (skipWs s1)
  let (v2, s3) ← eatIdent (skipWs s2)
  let s4 ← eatChar '.' (skipWs s3)
  let s5 ←
    match eatLit litHighlighted s4 with
    | some r => some r
    | none => eatLit litAlsoCheckBank s4
  let s6 ← eatChar '(' (skipWs s5)
  let s7 ← eatChar ')' (skipWs s6)
  some ((v1, v2), s7)

/-- JS truthiness of `map.get(name)`: `undefined` and the empty string are
both falsy, any other string is truthy. -/
def truthyGet (m : List (List Char × List Char)) (k : List Char) : Option (List Char) :=
  match mapGet m k with
  | some v => if v = [] then none else some v
  | none => none

/-- The recursive `resolve(name)` of `parseSetupRequirements`:
`const direct = displayByVar.get(name); if (direct) return direct;`
`const target = alias.get(name); if (target) return resolve(target);`
`return undefined;`.  The JS recursion is unbounded (and diverges on an alias
cycle, flagged as an open question by the spec); the fuel parameter models
the call depth, and any fuel exceeding the alias chain length yields the JS
result on acyclic graphs. -/
def resolveF (display aliasM : List (List Char × List Char)) :
    Nat → List Char → Option (List Char)
  | 0, _ => none
  | fuel + 1, name =>
    match truthyGet display name with
    | some d => some d
    | none =>
      match truthyGet aliasM name with
      | some t => resolveF display aliasM fuel t
      | none => none

/-- `parseSetupRequirements(java)`: scan the `setupRequirements` body for
direct requirement assignments and alias assignments (each an `exec` loop,
modelled by scan-then-fold since scanning never reads the maps), then build
the result map: every direct binding, then every alias key that resolves to a
truthy display string.  The resolver is run with fuel `alias.length + 1`: an
acyclic chain visits pairwise distinct alias keys, so it cannot be longer. -/
def parseSetupRequirements (java : List Char) : List (List Char × List Char) :=
  match extractMethodBody java ("setupRequirements").toList with
  | none => []
  | some body =>
    let displayByVar := (scanAllF matchItemReq (body.length + 1) body).foldl
        (fun m e => mapSet m e.1 e.2) []
    let aliasM := (scanAllF matchAlias (body.length + 1) body).foldl
        (fun m e => mapSet m e.1 e.2) []
    let res1 := displayByVar.foldl (fun r e => mapSet r e.1 e.2) []
    aliasM.foldl (fun r e =>
      match resolveF displayByVar aliasM (aliasM.length + 1) e.1 with
      | some d => if d = [] then r else mapSet r e.1 d
      | none => r) res1

/-- The loop of `resolveItemRequirements`: look each variable up in the setup
map; push the display string if it is truthy and unseen. -/
def riLoop (setupReqs : List (List Char × List Char)) :
    List (List Char) → List (List Char) → List (List Char)
  | [], _ => []
  | v :: vs, seen =>
    match mapGet setupReqs v with
    | some d =>
      if d ≠ [] ∧ memB d seen = false then d :: riLoop setupReqs vs (d :: seen)
      else riLoop setupReqs vs seen
    | none => riLoop setupReqs vs seen

def resolveItemRequirements (varNames : List (List Char))
    (setupReqs : List (List Char × List Char)) : List (List Char) :=
  riLoop setupReqs varNames []

/-! ### Specification-side chain predicates for C6 -/

/-- `ws` is the alias chain from `v` to a variable whose direct display
string is truthy and equals `d`; every intermediate variable has no truthy
direct binding. -/
def chainOkB (display aliasM : List (List Char × List Char)) :
    List Char → List (List Char) → List Char → Bool
  | v, [], d => decide (truthyGet display v = some d)
  | v, w :: ws, d =>
    decide (truthyGet display v = none) && decide (truthyGet aliasM v = some w) &&
      chainOkB display aliasM w ws d

/-- `ws` is an alias chain from `v` that dead-ends: no variable on it has a
truthy direct binding, and the last one has no alias either. -/
def chainDeadB (display aliasM : List (List Char × List Char)) :
    List Char → List (List Char) → Bool
  | v, [] => decide (truthyGet display v = none) && decide (truthyGet aliasM v = none)
  | v, w :: ws =>
    decide (truthyGet display v = none) && decide (truthyGet aliasM v = some w) &&
      chainDeadB display aliasM w ws

/-- C6 (amended): `resolve(name)` returns the direct display string when a
truthy (nonempty) one exists; an empty direct literal is falsy and treated as
absent, so resolution falls through to the alias chain (see the
counterexample).  Otherwise it follows the alias chain through any number of
indirections — depth ≥ 2 included — until a truthy direct mapping is found
(conjunct 1, for a chain `ws` of any length, with any fuel exceeding the
chain length, as the wrapper's `aliasM.length + 1` does on an acyclic graph);
a chain that terminates without one resolves to nothing (conjunct 2), and a
variable with no resolved display string contributes nothing to the
item-requirement output: deleting it from the reference list leaves
`resolveItemRequirements` unchanged (conjunct 3). -/
theorem resolve_chain_spec :
    (∀ (display aliasM : List (List Char × List Char)) (v : List Char)
      (ws : List (List Char)) (d : List Char) (fuel : Nat),
      chainOkB display aliasM v ws d = true → ws.length < fuel →
      resolveF display aliasM fuel v = some d) ∧
    (∀ (display aliasM : List (List Char × List Char)) (v : List Char)
      (ws : List (List Char)) (fuel : Nat),
      chainDeadB display aliasM v ws = true → ws.length < fuel →
      resolveF display aliasM fuel v = none) ∧
    (∀ (setupReqs : List (List Char × List Char)) (varNames seen : List (List Char))
      (v : List Char), mapGet setupReqs v = none →
      riLoop setupReqs (varNames.filter (fun w => !(decide (w = v)))) seen
        = riLoop setupReqs varNames seen) := by
  refine ⟨?_, ?_, ?_⟩
  · intro display aliasM v ws d fuel hch hfuel
    induction ws generalizing v fuel with
    | nil =>
      obtain ⟨m, rfl⟩ : ∃ m, fuel = m + 1 := ⟨fuel - 1, by omega⟩
      simp only [chainOkB, decide_eq_true_eq] at hch
      simp [resolveF, hch]
    | cons w ws ih =>
      obtain ⟨m, rfl⟩ : ∃ m, fuel = m + 1 := ⟨fuel - 1, by omega⟩
      simp only [chainOkB, Bool.and_eq_true, decide_eq_true_eq] at hch
      obtain ⟨⟨h1, h2⟩, h3⟩ := hch
      simp only [resolveF, h1, h2]
      exact ih w m h3 (by simp only [List.length_cons] at hfuel; omega)
  · intro display aliasM v ws fuel hch hfuel
    induction ws generalizing v fuel with
    | nil =>
      obtain ⟨m, rfl⟩ : ∃ m, fuel = m + 1 := ⟨fuel - 1, by omega⟩
      simp only [chainDeadB, Bool.and_eq_true, decide_eq_true_eq] at hch
      simp [resolveF, hch.1, hch.2]
    | cons w ws ih =>
      obtain ⟨m, rfl⟩ : ∃ m, fuel = m + 1 := ⟨fuel - 1, by omega⟩
      simp only [chainDeadB, Bool.and_eq_true, decide_eq_true_eq] at hch
      obtain ⟨⟨h1, h2⟩, h3⟩ := hch
      simp only [resolveF, h1, h2]
      exact ih w m h3 (by simp only [List.length_cons] at hfuel; omega)
  · intro setupReqs varNames seen v hv
    induction varNames generalizing seen with
    | nil => simp
    | cons r rs ih =>
      by_cases hrv : r = v
      · subst hrv
        simp only [List.filter_cons]
        rw [if_neg (by simp : ¬ ((!decide True) = true))]
        simp only [riLoop, hv]
        exact ih seen
      · simp only [List.filter_cons]
        rw [if_pos (by simp [hrv] : (!decide (r = v)) = true)]
        cases h : mapGet setupReqs r with
        | none => simp only [riLoop, h]; exact ih seen
        | some d =>
          simp only [riLoop, h]
          by_cases hk : d ≠ [] ∧ memB d seen = false
          · rw [if_pos hk, if_pos hk, ih (d :: seen)]
          · rw [if_neg hk, if_neg hk, ih seen]

def cexJavaC6 : List Char :=
  ("public void setupRequirements() \x7b a = new ItemRequirement(\"\", 1); b = new ItemRequirement(\"X\", 1); a = b.highlighted(); \x7d").toList

set_option maxRecDepth 8192 in
/-- Counterexample to C6 as stated: in the alias graph built from a
`setupRequirements` body containing `a = new ItemRequirement("", 1)` (a
direct literal display string for `a`, namely the empty string),
`b = new ItemRequirement("X", 1)` and `a = b.highlighted()`, `resolve("a")`
does not return `a`'s direct literal `""`: the empty string is falsy, so the
code falls through to the alias chain and returns `"X"`; the final
requirement map binds `a` to `"X"`. -/
theorem resolve_empty_direct_cex :
    mapGet [((("a").toList), ([] : List Char)), ((("b").toList), ("X").toList)]
        (("a").toList) = some [] ∧
    resolveF [((("a").toList), ([] : List Char)), ((("b").toList), ("X").toList)]
        [((("a").toList), ("b").toList)] 2 (("a").toList) = some (("X").toList) ∧
    mapGet (parseSetupRequirements cexJavaC6) (("a").toList) = some (("X").toList) := by
  refine ⟨by decide, by decide, by decide⟩

/-- Witness for C6's amended theorem: a depth-2 chain `a → b → "X"` resolves
`a` to `"X"`; a dead-end chain resolves to `none`; a variable absent from the
setup map contributes nothing to the item-requirement output. -/
theorem resolve_chain_spec_witness :
    (resolveF [((("b").toList), ("X").toList)] [((("a").toList), ("b").toList)] 2
      (("a").toList) = some (("X").toList)) ∧
    (resolveF [] [((("a").toList), ("b").toList)] 2 (("a").toList) = none) ∧
    (riLoop [] ([("v").toList].filter (fun w => !(decide (w = ("v").toList)))) []
      = riLoop [] [("v").toList] []) :=
  ⟨resolve_chain_spec.1 [((("b").toList), ("X").toList)] [((("a").toList), ("b").toList)]
      (("a").toList) [("b").toList] (("X").toList) 2 (by decide) (by decide),
    resolve_chain_spec.2.1 [] [((("a").toList), ("b").toList)] (("a").toList)
      [("b").toList] 2 (by decide) (by decide),
    resolve_chain_spec.2.2 [] [("v").toList] [] (("v").toList) (by decide)⟩

/-! ## Step-variable assignments (`parseSetupSteps`) -/

def litNpcStep : List Char := "NpcStep".toList

def litObjectStep : List Char := "ObjectStep".toList

def litWorldPoint : List Char := "WorldPoint".toList

def litThis : List Char := "this".toList

/-- Pieces of the step-assignment regex
`([a-zA-Z_][a-zA-Z0-9_]*)\s*=\s*new\s+(?:NpcStep|ObjectStep)\s*\(\s*this\s*,\s*[^,]+,\s*new\s+WorldPoint\s*\(\s*(\d+)\s*,\s*(\d+)\s*,\s*(\d+)\s*\)\s*,\s*"`
(`objOnly` selects the second pass's ObjectStep-only variant).  Deterministic:
all greedy runs are followed by characters outside their class, and
`\s*[^,]+,` consumes exactly the (nonempty) text up to the first comma —
whitespace is itself in `[^,]`, so the flexible split between the two
quantifiers never changes what is consumed.  `matchStepHead` covers
everything through the comma after `this`. -/
def matchStepHead (objOnly : Bool) (s : List Char) : Option (List Char × List Char) := do
  let (v, s1) ← eatIdent s
  let s2 ← eatChar '=' (skipWs s1)
  let s3 ← eatLit litNew (skipWs s2)
  let s4 ← eatWs1 s3
  let s5 ←
    if objOnly then eatLit litObjectStep s4
    else
      match eatLit litNpcStep s4 with
      | some r => some r
      | none => eatLit litObjectStep s4
  let s6 ← eatChar '(' (skipWs s5)
  let s7 ← eatLit litThis (skipWs s6)
  eatChar ',' (skipWs s7)
  |>.map (fun s8 => (v, s8))

/-- `\s*(\d+)\s*,\s*(\d+)\s*,\s*(\d+)\s*\)` after the WorldPoint `(`. -/
def eatWorldPointArgs (s : List Char) : Option ((Nat × Nat × Nat) × List Char) := do
  let (x, s14) ← eatDigits (skipWs s)
  let s15 ← eatChar ',' (skipWs s14)
  let (y, s16) ← eatDigits (skipWs s15)
  let s17 ← eatChar ',' (skipWs s16)
  let (z, s18) ← eatDigits (skipWs s17)
  let s19 ← eatChar ')' (skipWs s18)
  some ((x, y, z), s19)

/-- `\s*new\s+WorldPoint\s*\(` + arguments + `\s*,\s*"`. -/
def matchStepPoint (s : List Char) : Option ((Nat × Nat × Nat) × List Char) := do
  let s10 ← eatLit litNew (skipWs s)
  let s11 ← eatWs1 s10
  let s12 ← eatLit litWorldPoint s11
  let s13 ← eatChar '(' (skipWs s12)
  let (t, s19) ← eatWorldPointArgs s13
  let s20 ← eatChar ',' (skipWs s19)
  let s21 ← eatChar '"' (skipWs s20)
  some (t, s21)

/-- One attempt of the full step-assignment regex anchored at the start of
`s`, yielding the variable and the three captured integers, plus the suffix
after the final opening quote. -/
def matchStepCore (objOnly : Bool) (s : List Char) :
    Option ((List Char × Nat × Nat × Nat) × List Char) := do
  let (v, s8) ← matchStepHead objOnly s
  let arg := s8.takeWhile (fun c => c != ',')
  if arg.isEmpty then none
  else do
    let s9 ← eatChar ',' (s8.drop arg.length)
    let (t, r) ← matchStepPoint s9
    some ((v, t.1, t.2.1, t.2.2), r)

/-- A full step match: the description is reconstructed by the
Literal-String Reconstructor started at the final quote of the match
(`m.index + m[0].length - 1`), and the `exec` loop resumes right after that
quote. -/
def matchStep (objOnly : Bool) (s : List Char) :
    Option ((List Char × QuestStep) × List Char) :=
  match matchStepCore objOnly s with
  | some ((v, x, y, z), r) =>
    some ((v, ⟨readConcatenatedString ('"' :: r),
      ⟨(x : Int), (y : Int), (z : Int)⟩⟩), r)
  | none => none

/-- The second pass's guarded write: `if (!map.has(k)) map.set(k, v)`. -/
def guardSet {β : Type} (m : List (List Char × β)) (k : List Char) (v : β) :
    List (List Char × β) :=
  if (mapGet m k).isSome then m else mapSet m k v

/-- `parseSetupSteps(java)`: the first scan matches both step kinds and
writes each match with an unguarded `map.set`; the second scan matches
ObjectStep only and writes only variables not already bound
(`if (!map.has(...))`). -/
def parseSetupSteps (java : List Char) : List (List Char × QuestStep) :=
  match extractMethodBody java ("setupSteps").toList with
  | none => []
  | some body =>
    let es1 := scanAllF (matchStep false) (body.length + 1) body
    let m1 := es1.foldl (fun m e => mapSet m e.1 e.2) []
    let es2 := scanAllF (matchStep true) (body.length + 1) body
    es2.foldl (fun m e => guardSet m e.1 e.2) m1

/-- Specification-side: the value of the LAST binding of `k` in an
association list. -/
def lastAssoc {β : Type} (l : List (List Char × β)) (k : List Char) : Option β :=
  match l with
  | [] => none
  | (k', v) :: rest =>
    match lastAssoc rest k with
    | some d => some d
    | none => if k' = k then some v else none

theorem mapGet_mapSet {β : Type} (m : List (List Char × β)) (k k' : List Char) (v : β) :
    mapGet (mapSet m k v) k' = if k = k' then some v else mapGet m k' := by
  induction m with
  | nil => simp [mapGet, mapSet]
  | cons e rest ih =>
    obtain ⟨a, b⟩ := e
    by_cases hak : a = k
    · subst hak
      simp only [mapSet, if_pos rfl]
      by_cases hak' : a = k'
      · subst hak'
        simp [mapGet]
      · simp [mapGet, hak']
    · simp only [mapSet, if_neg hak]
      by_cases hak' : a = k'
      · subst hak'
        have : ¬ k = a := fun h => hak h.symm
        simp [mapGet, this]
      · simp [mapGet, hak', ih]

theorem foldl_mapSet_get {β : Type} (es : List (List Char × β)) :
    ∀ (m0 : List (List Char × β)) (k : List Char),
    mapGet (es.foldl (fun m e => mapSet m e.1 e.2) m0) k
      = match lastAssoc es k with
        | some d => some d
        | none => mapGet m0 k := by
  induction es with
  | nil => intro m0 k; simp [lastAssoc]
  | cons e rest ih =>
    intro m0 k
    obtain ⟨k', v⟩ := e
    simp only [List.foldl_cons]
    rw [ih (mapSet m0 k' v) k]
    simp only [lastAssoc]
    cases lastAssoc rest k with
    | some d => simp
    | none =>
      simp only
      rw [mapGet_mapSet]
      by_cases h : k' = k
      · subst h; simp
      · simp [h]

theorem foldl_guardSet_get {β : Type} (es : List (List Char × β)) :
    ∀ (m0 : List (List Char × β)) (k : List Char),
    mapGet (es.foldl (fun m e => guardSet m e.1 e.2) m0) k
      = match mapGet m0 k with
        | some d => some d
        | none => mapGet es k := by
  induction es with
  | nil =>
    intro m0 k
    simp only [List.foldl_nil, mapGet]
    cases mapGet m0 k <;> simp
  | cons e rest ih =>
    intro m0 k
    obtain ⟨k', v⟩ := e
    simp only [List.foldl_cons]
    cases hk' : mapGet m0 k' with
    | some d0 =>
      rw [show guardSet m0 k' v = m0 by simp [guardSet, hk']]
      rw [ih m0 k]
      cases hk : mapGet m0 k with
      | some d => simp
      | none =>
        simp only [mapGet]
        have hne : ¬ k' = k := by
          intro he
          subst he
          rw [hk'] at hk
          exact absurd hk (by simp)
        simp [hne]
    | none =>
      rw [show guardSet m0 k' v = mapSet m0 k' v by simp [guardSet, hk']]
      rw [ih (mapSet m0 k' v) k]
      rw [mapGet_mapSet]
      by_cases h : k' = k
      · subst h
        simp [hk', mapGet]
      · simp only [if_neg h, mapGet, if_neg h]

/-- C4 (amended): the step table binds a variable to the LAST matching
assignment of the first scan (whose regex matches both `NpcStep` and
`ObjectStep`, and whose `map.set` carries no `has` guard, so later matches
overwrite earlier ones); only for variables the first scan never bound does
the second, ObjectStep-only scan contribute, and there its `!map.has` guard
makes the FIRST occurrence win. -/
theorem parseSetupSteps_lastWins (java body : List Char)
    (hbody : extractMethodBody java ("setupSteps").toList = some body) (v : List Char) :
    mapGet (parseSetupSteps java) v
      = match lastAssoc (scanAllF (matchStep false) (body.length + 1) body) v with
        | some d => some d
        | none => mapGet (scanAllF (matchStep true) (body.length + 1) body) v := by
  unfold parseSetupSteps
  rw [hbody]
  simp only
  rw [foldl_guardSet_get, foldl_mapSet_get]
  cases lastAssoc (scanAllF (matchStep false) (body.length + 1) body) v with
  | some d => simp
  | none => simp [mapGet]

def cexJavaC4 : List Char :=
  ("public void setupSteps() \x7b s = new NpcStep(this, q, new WorldPoint(1, 2, 0), \"A\"); s = new NpcStep(this, q, new WorldPoint(3, 4, 0), \"B\"); \x7d").toList

set_option maxRecDepth 8192 in
/-- Counterexample to C4 as stated: a `setupSteps` body assigns the same
variable `s` twice by the recognized NpcStep pattern (first with description
`A` at WorldPoint (1,2,0), then with `B` at (3,4,0)); the produced step table
binds `s` to the SECOND assignment — the later matching assignment
overwrites the earlier binding, refuting "the first-seen binding wins". -/
theorem parseSetupSteps_overwrite_cex :
    mapGet (parseSetupSteps cexJavaC4) (("s").toList)
      = some ⟨("B").toList, ⟨3, 4, 0⟩⟩ := by
  decide

def wJavaC4 : List Char :=
  ("public void setupSteps() \x7b t = new ObjectStep(this, q, new WorldPoint(5, 6, 1), \"C\"); \x7d").toList

set_option maxRecDepth 8192 in
/-- Witness for C4's amended theorem at a concrete single-assignment body. -/
theorem parseSetupSteps_lastWins_witness :
    mapGet (parseSetupSteps wJavaC4) (("t").toList)
      = some ⟨("C").toList, ⟨5, 6, 1⟩⟩ := by
  have h := parseSetupSteps_lastWins wJavaC4
    ((" t = new ObjectStep(this, q, new WorldPoint(5, 6, 1), \"C\"); ").toList)
    (by decide) (("t").toList)
  rw [h]
  decide

/-! ## Panel groupings (`parsePanels`) -/

def litPanelDetails : List Char := "PanelDetails".toList

def litListOf : List Char := "List.of".toList

def litArraysAsList : List Char := "Arrays.asList".toList

def litSingletonList : List Char := "Collections.singletonList".toList

/-- JS `String.prototype.trim` (ASCII whitespace). -/
def jsTrim (l : List Char) : List Char :=
  ((l.dropWhile jsSpace).reverse.dropWhile jsSpace).reverse

/-- `v.split(/\s+/).pop()` on a trimmed string: the suffix after the last
whitespace character (`""` stays `""`, matching `[""].pop()`). -/
def lastWord (l : List Char) : List Char :=
  (l.reverse.takeWhile (fun c => !(jsSpace c))).reverse

/-- `/^[a-zA-Z_][a-zA-Z0-9_]*$/.test`. -/
def isIdentB (l : List Char) : Bool :=
  match l with
  | [] => false
  | c :: rest => identStartChar c && rest.all wordChar

/-- The identifier list inside a panel's list literal:
`.split(",").map((s) => s.trim().split(/\s+/).pop() ?? s.trim())` then the
identifier filter. -/
def panelVars (inner : List Char) : List (List Char) :=
  ((inner.splitOn ',').map (fun s => lastWord (jsTrim s))).filter isIdentB

/-- `KW\s*\(([^)]+)\)` for one of the three list-construction keywords:
returns the (nonempty) captured text up to the first `)` and the suffix
after it. -/
def eatListForm (kw : List Char) (s : List Char) : Option (List Char × List Char) := do
  let s1 ← eatLit kw s
  let s2 ← eatChar '(' (skipWs s1)
  let inner := s2.takeWhile (fun c => c != ')')
  if inner.isEmpty then none
  else do
    let s3 ← eatChar ')' (s2.drop inner.length)
    some (inner, s3)

/-- One attempt of the panel regex
`(?:new\s+)?PanelDetails\s*\(\s*"([^"]+)"\s*,\s*(?:List\.of\s*\(([^)]+)\)|Arrays\.asList\s*\(([^)]+)\)|Collections\.singletonList\s*\(([^)]+)\))`
anchored at the start of `s`.  The optional `new\s+` is tried present-first;
the three list alternatives start with different letters, so the alternation
is deterministic; `[^"]+`/`[^)]+` stop at the first closing delimiter. -/
def matchPanelAt (s : List Char) : Option ((List Char × List (List Char)) × List Char) := do
  let s1 ←
    match (eatLit litNew s).bind eatWs1 with
    | some r => eatLit litPanelDetails r
    | none => eatLit litPanelDetails s
  let s2 ← eatChar '(' (skipWs s1)
  let s3 ← eatChar '"' (skipWs s2)
  let title := s3.takeWhile (fun c => c != '"')
  if title.isEmpty then none
  else do
    let s4 ← eatChar '"' (s3.drop title.length)
    let s5 ← eatChar ',' (skipWs s4)
    let s6 := skipWs s5
    let pr ←
      match eatListForm litListOf s6 with
      | some pr => some pr
      | none =>
        match eatListForm litArraysAsList s6 with
        | some pr => some pr
        | none => eatListForm litSingletonList s6
    some ((title, panelVars pr.1), pr.2)

/-- `parsePanels(java)`: every panel-constructor match, in order. -/
def parsePanels (java : List Char) : List PanelData :=
  match extractMethodBody java ("getPanels").toList with
  | none => []
  | some body =>
    (scanAllF matchPanelAt (body.length + 1) body).map (fun p => ⟨p.1, p.2⟩)

theorem scanAllF_forall {α : Type} (m : List Char → Option (α × List Char)) (P : α → Prop)
    (hm : ∀ s a r, m s = some (a, r) → P a) :
    ∀ (fuel : Nat) (s : List Char) (a : α), a ∈ scanAllF m fuel s → P a := by
  intro fuel
  induction fuel with
  | zero => intro s a ha; simp [scanAllF] at ha
  | succ fuel ih =>
    intro s a ha
    cases s with
    | nil => simp [scanAllF] at ha
    | cons c rest =>
      cases hms : m (c :: rest) with
      | none =>
        rw [show scanAllF m (fuel + 1) (c :: rest) = scanAllF m fuel rest by
          simp [scanAllF, hms]] at ha
        exact ih rest a ha
      | some pr =>
        obtain ⟨a0, r⟩ := pr
        rw [show scanAllF m (fuel + 1) (c :: rest) = a0 :: scanAllF m fuel r by
          simp [scanAllF, hms]] at ha
        cases ha with
        | head => exact hm (c :: rest) a r hms
        | tail _ hmem => exact ih r a hmem

theorem matchStep_nonneg (b : Bool) (s : List Char) (e : List Char × QuestStep)
    (r : List Char) (h : matchStep b s = some (e, r)) :
    0 ≤ e.2.worldpoint.x ∧ 0 ≤ e.2.worldpoint.y ∧ 0 ≤ e.2.worldpoint.plane := by
  unfold matchStep at h
  cases hc : matchStepCore b s with
  | none => rw [hc] at h; exact absurd h (by simp)
  | some pr =>
    rw [hc] at h
    obtain ⟨⟨v, x, y, z⟩, r0⟩ := pr
    have he : e = (v, ⟨readConcatenatedString ('"' :: r0),
        ⟨(x : Int), (y : Int), (z : Int)⟩⟩) := by
      injection h with h1
      injection h1 with ha hb
      exact ha.symm
    subst he
    refine ⟨?_, ?_, ?_⟩ <;> exact Int.natCast_nonneg _

theorem lastAssoc_mem {β : Type} (l : List (List Char × β)) (k : List Char) (d : β)
    (h : lastAssoc l k = some d) : (k, d) ∈ l := by
  induction l with
  | nil => simp [lastAssoc] at h
  | cons e rest ih =>
    obtain ⟨k', v⟩ := e
    simp only [lastAssoc] at h
    cases hrest : lastAssoc rest k with
    | some d' =>
      rw [hrest] at h
      simp only [Option.some.injEq] at h
      subst h
      exact List.mem_cons_of_mem _ (ih hrest)
    | none =>
      rw [hrest] at h
      simp only at h
      by_cases hk : k' = k
      · rw [if_pos hk] at h
        simp only [Option.some.injEq] at h
        subst hk
        subst h
        exact List.mem_cons_self _ _
      · rw [if_neg hk] at h
        exact absurd h (by simp)

theorem mapGet_mem {β : Type} (l : List (List Char × β)) (k : List Char) (d : β)
    (h : mapGet l k = some d) : (k, d) ∈ l := by
  induction l with
  | nil => simp [mapGet] at h
  | cons e rest ih =>
    obtain ⟨k', v⟩ := e
    simp only [mapGet] at h
    by_cases hk : k' = k
    · rw [if_pos hk] at h
      simp only [Option.some.injEq] at h
      subst hk
      subst h
      exact List.mem_cons_self _ _
    · rw [if_neg hk] at h
      exact List.mem_cons_of_mem _ (ih h)

theorem buildSteps_shape (panels : List PanelData) (sd : List (List Char × QuestStep)) :
    ∀ p ∈ buildSteps panels sd, ∃ q, q ∈ panels ∧
      p.steps = buildStepsInner sd q.stepVarNames := by
  induction panels with
  | nil => intro p hp; simp [buildSteps] at hp
  | cons q qs ih =>
    intro p hp
    simp only [buildSteps] at hp
    cases hp with
    | head => exact ⟨q, List.mem_cons_self _ _, rfl⟩
    | tail _ hmem =>
      obtain ⟨q', hq', hs⟩ := ih p hmem
      exact ⟨q', List.mem_cons_of_mem _ hq', hs⟩

/-- C10: every step record produced by `parseSetupSteps` carries a WorldPoint
whose x, y and plane are non-negative integers (the step-assignment patterns
capture only digit runs, parsed with `parseInt`), and hence so does every
panel step assembled by `buildSteps` from `parsePanels` and
`parseSetupSteps` — no written step ever carries a negative or non-integral
coordinate (integrality is by construction: the embedding's `WorldPoint`
fields are integers obtained from digit runs). -/
theorem worldpoint_nonneg :
    (∀ (java v : List Char) (st : QuestStep),
      mapGet (parseSetupSteps java) v = some st →
      0 ≤ st.worldpoint.x ∧ 0 ≤ st.worldpoint.y ∧ 0 ≤ st.worldpoint.plane) ∧
    (∀ (java : List Char) (p : QuestPanel),
      p ∈ buildSteps (parsePanels java) (parseSetupSteps java) →
      ∀ st ∈ p.steps,
      0 ≤ st.worldpoint.x ∧ 0 ≤ st.worldpoint.y ∧ 0 ≤ st.worldpoint.plane) := by
  have htable : ∀ (java v : List Char) (st : QuestStep),
      mapGet (parseSetupSteps java) v = some st →
      0 ≤ st.worldpoint.x ∧ 0 ≤ st.worldpoint.y ∧ 0 ≤ st.worldpoint.plane := by
    intro java v st h
    unfold parseSetupSteps at h
    cases hb : extractMethodBody java ("setupSteps").toList with
    | none => rw [hb] at h; simp [mapGet] at h
    | some body =>
      rw [hb] at h
      simp only at h
      rw [foldl_guardSet_get, foldl_mapSet_get] at h
      have hpair : ∀ (b : Bool) (e : List Char × QuestStep),
          e ∈ scanAllF (matchStep b) (body.length + 1) body →
          0 ≤ e.2.worldpoint.x ∧ 0 ≤ e.2.worldpoint.y ∧ 0 ≤ e.2.worldpoint.plane := by
        intro b e he
        exact scanAllF_forall (matchStep b)
          (fun e => 0 ≤ e.2.worldpoint.x ∧ 0 ≤ e.2.worldpoint.y ∧ 0 ≤ e.2.worldpoint.plane)
          (fun s a r hm => matchStep_nonneg b s a r hm) (body.length + 1) body e he
      cases h1 : lastAssoc (scanAllF (matchStep false) (body.length + 1) body) v with
      | some d =>
        rw [h1] at h
        simp only [Option.some.injEq] at h
        subst h
        exact hpair false (v, d) (lastAssoc_mem _ _ _ h1)
      | none =>
        rw [h1] at h
        simp only [mapGet] at h
        exact hpair true (v, st) (mapGet_mem _ _ _ h)
  refine ⟨htable, ?_⟩
  intro java p hp st hst
  obtain ⟨q, _, hs⟩ := buildSteps_shape (parsePanels java) (parseSetupSteps java) p hp
  rw [hs, buildStepsInner_filterMap] at hst
  obtain ⟨v, _, hv⟩ := List.mem_filterMap.mp hst
  exact htable java v st hv

def wJavaC10 : List Char :=
  ("public void setupSteps() \x7b t = new NpcStep(this, q, new WorldPoint(7, 8, 0), \"D\"); \x7d public void getPanels() \x7b p(new PanelDetails(\"Go\", List.of(t))); \x7d").toList

set_option maxRecDepth 8192 in
/-- Witness for C10 at a concrete quest source with one step and one panel. -/
theorem worldpoint_nonneg_witness :
    mapGet (parseSetupSteps wJavaC10) (("t").toList)
        = some ⟨("D").toList, ⟨7, 8, 0⟩⟩ ∧
      (0 ≤ (⟨("D").toList, ⟨7, 8, 0⟩⟩ : QuestStep).worldpoint.x ∧
        0 ≤ (⟨("D").toList, ⟨7, 8, 0⟩⟩ : QuestStep).worldpoint.y ∧
        0 ≤ (⟨("D").toList, ⟨7, 8, 0⟩⟩ : QuestStep).worldpoint.plane) :=
  ⟨by decide, worldpoint_nonneg.1 wJavaC10 (("t").toList) _ (by decide)⟩

/-! ## General requirements (`parseGeneralRequirements`) -/

def litSkillRequirement : List Char := "SkillRequirement".toList

def litSkillDot : List Char := "Skill.".toList

def litQuestRequirement : List Char := "QuestRequirement".toList

def litQuestHelperQuestDot : List Char := "QuestHelperQuest.".toList

def litQuestPointRequirement : List Char := "QuestPointRequirement".toList

/-- `new\s+SkillRequirement\s*\(\s*Skill\.(\w+)\s*,\s*(\d+)`: skill name and
level; the `exec` loop resumes after the digits. -/
def matchSkillReq (s : List Char) : Option ((List Char × Nat) × List Char) := do
  let s1 ← eatLit litNew s
  let s2 ← eatWs1 s1
  let s3 ← eatLit litSkillRequirement s2
  let s4 ← eatChar '(' (skipWs s3)
  let s5 ← eatLit litSkillDot (skipWs s4)
  let (w, s6) ← eatRun wordChar s5
  let s7 ← eatChar ',' (skipWs s6)
  let (n, s8) ← eatDigits (skipWs s7)
  some ((w, n), s8)

/-- `QuestRequirement\s*\(\s*QuestHelperQuest\.(\w+)`: the symbolic quest
identifier (maximal word run). -/
def matchQuestReq (s : List Char) : Option (List Char × List Char) := do
  let s1 ← eatLit litQuestRequirement s
  let s2 ← eatChar '(' (skipWs s1)
  let s3 ← eatLit litQuestHelperQuestDot (skipWs s2)
  let (w, s4) ← eatRun wordChar s3
  some (w, s4)

/-- `new\s+QuestPointRequirement\s*\(\s*(\d+)\s*\)` (only the first match is
used). -/
def matchQPReq (s : List Char) : Option Nat := do
  let s1 ← eatLit litNew s
  let s2 ← eatWs1 s1
  let s3 ← eatLit litQuestPointRequirement s2
  let s4 ← eatChar '(' (skipWs s3)
  let (n, s5) ← eatDigits (skipWs s4)
  let _ ← eatChar ')' (skipWs s5)
  some n

/-- `s.charAt(0).toUpperCase() + s.slice(1).toLowerCase()` (ASCII, as the
captured skill names are `\w+` runs). -/
def skillEnumToDisplay (l : List Char) : List Char :=
  match l with
  | [] => []
  | c :: rest => c.toUpper :: rest.map Char.toLower

/-- `name.replace(/_/g, " ")`. -/
def underscoreToSpace (l : List Char) : List Char :=
  l.map (fun c => if c = '_' then ' ' else c)

/-- `.replace(/\b\w/g, (c) => c.toUpperCase())`: uppercase each word
character whose predecessor is not a word character; the Boolean carries
"previous character was a word character". -/
def upWordStarts : Bool → List Char → List Char
  | _, [] => []
  | prevW, c :: rest =>
    (if wordChar c && !prevW then c.toUpper else c) :: upWordStarts (wordChar c) rest

def convertQuestName (l : List Char) : List Char :=
  upWordStarts false (underscoreToSpace l)

/-- `if (!questRequirements.includes(name)) questRequirements.push(name)`. -/
def pushUniq (acc : List (List Char)) (n : List Char) : List (List Char) :=
  if memB n acc then acc else acc ++ [n]

structure GeneralReqs where
  skillRequirements : List SkillRequirement
  questRequirements : List (List Char)
  questPointRequirement : Option Int
deriving DecidableEq

/-- `parseGeneralRequirements(java)`: skill requirements in match order (no
dedup), quest prerequisites converted to display strings and deduplicated on
first occurrence, and the first quest-point requirement if any. -/
def parseGeneralRequirements (java : List Char) : GeneralReqs :=
  match extractMethodBody java ("getGeneralRequirements").toList with
  | none => ⟨[], [], none⟩
  | some body =>
    ⟨(scanAllF matchSkillReq (body.length + 1) body).map
        (fun p => ⟨skillEnumToDisplay p.1, (p.2 : Int)⟩),
      ((scanAllF matchQuestReq (body.length + 1) body).map convertQuestName).foldl
        pushUniq [],
      (findFirstF matchQPReq (body.length + 1) body).map (fun n => (n : Int))⟩

/-! ### Specification-side dedup for C9 -/

/-- First-occurrence deduplication with an explicit seen set (a different
implementation from the code's `includes`-on-the-output loop). -/
def firstDedupAux : List (List Char) → List (List Char) → List (List Char)
  | [], _ => []
  | x :: xs, seen =>
    if memB x seen then firstDedupAux xs seen else x :: firstDedupAux xs (x :: seen)

def firstDedup (l : List (List Char)) : List (List Char) :=
  firstDedupAux l []

/-- Occurrence count of a string in a list of strings. -/
def countL (d : List Char) : List (List Char) → Nat
  | [] => 0
  | x :: xs => (if x = d then 1 else 0) + countL d xs

theorem memB_iff (x : List Char) (l : List (List Char)) : memB x l = true ↔ x ∈ l := by
  induction l with
  | nil => simp [memB]
  | cons y ys ih =>
    by_cases h : y = x
    · subst h; simp [memB]
    · simp only [memB, if_neg h, ih, List.mem_cons]
      constructor
      · intro hx; exact Or.inr hx
      · intro hor
        cases hor with
        | inl he => exact absurd he.symm h
        | inr hx => exact hx

theorem memB_append (x : List Char) (a b : List (List Char)) :
    memB x (a ++ b) = (memB x a || memB x b) := by
  induction a with
  | nil => simp [memB]
  | cons y ys ih =>
    by_cases h : y = x
    · subst h; simp [memB]
    · simp [memB, h, ih]

theorem pushUniq_mem {acc : List (List Char)} {n : List Char}
    (h : memB n acc = true) : pushUniq acc n = acc := by
  simp [pushUniq, h]

theorem pushUniq_notmem {acc : List (List Char)} {n : List Char}
    (h : memB n acc = false) : pushUniq acc n = acc ++ [n] := by
  simp [pushUniq, h]

theorem firstDedupAux_cons_mem {x : List Char} {seen : List (List Char)}
    (xs : List (List Char)) (h : memB x seen = true) :
    firstDedupAux (x :: xs) seen = firstDedupAux xs seen := by
  simp [firstDedupAux, h]

theorem firstDedupAux_cons_notmem {x : List Char} {seen : List (List Char)}
    (xs : List (List Char)) (h : memB x seen = false) :
    firstDedupAux (x :: xs) seen = x :: firstDedupAux xs (x :: seen) := by
  simp [firstDedupAux, h]

theorem foldl_pushUniq (ds : List (List Char)) :
    ∀ (acc seen : List (List Char)), (∀ y, memB y acc = memB y seen) →
    ds.foldl pushUniq acc = acc ++ firstDedupAux ds seen := by
  induction ds with
  | nil => intro acc seen _; simp [firstDedupAux]
  | cons d rest ih =>
    intro acc seen hinv
    simp only [List.foldl_cons]
    cases hm : memB d acc with
    | true =>
      rw [pushUniq_mem hm, firstDedupAux_cons_mem rest ((hinv d).symm.trans hm)]
      exact ih acc seen hinv
    | false =>
      rw [pushUniq_notmem hm, firstDedupAux_cons_notmem rest ((hinv d).symm.trans hm)]
      rw [ih (acc ++ [d]) (d :: seen) ?hinv]
      · simp
      case hinv =>
        intro y
        rw [memB_append]
        simp only [memB, hinv y]
        by_cases h : d = y
        · subst h; simp
        · simp [h]

theorem firstDedupAux_count (ds : List (List Char)) :
    ∀ (seen : List (List Char)) (d : List Char),
    countL d (firstDedupAux ds seen) = if d ∈ ds ∧ ¬ d ∈ seen then 1 else 0 := by
  induction ds with
  | nil => intro seen d; simp [firstDedupAux, countL]
  | cons x xs ih =>
    intro seen d
    cases hm : memB x seen with
    | true =>
      rw [firstDedupAux_cons_mem xs hm, ih seen d]
      by_cases hdx : d = x
      · subst hdx
        have hds : d ∈ seen := (memB_iff d seen).mp hm
        simp [hds]
      · simp [List.mem_cons, hdx]
    | false =>
      rw [firstDedupAux_cons_notmem xs hm]
      simp only [countL]
      rw [ih (x :: seen) d]
      by_cases hdx : x = d
      · subst hdx
        have hns : ¬ x ∈ seen := fun hc => by
          rw [(memB_iff x seen).mpr hc] at hm
          exact absurd hm (by simp)
        simp [List.mem_cons, hns]
      · have hdx' : ¬ d = x := fun he => hdx he.symm
        simp only [if_neg hdx, List.mem_cons, Nat.zero_add]
        by_cases hin : d ∈ xs
        · simp [hin, hdx', Ne.symm hdx]
        · simp [hin, hdx']

theorem firstDedupAux_sublist (ds : List (List Char)) :
    ∀ seen, (firstDedupAux ds seen).Sublist ds := by
  induction ds with
  | nil => intro seen; simp [firstDedupAux]
  | cons x xs ih =>
    intro seen
    cases hm : memB x seen with
    | true =>
      rw [firstDedupAux_cons_mem xs hm]
      exact (ih seen).cons x
    | false =>
      rw [firstDedupAux_cons_notmem xs hm]
      exact (ih (x :: seen)).cons₂ x

/-- C9: quest-prerequisite extraction is idempotent under duplicate source
references.  With `ds` the converted display strings of all
`QuestRequirement(QuestHelperQuest.X)` matches in source order, the output
list (1) equals the first-occurrence deduplication of `ds` (an independent
seen-set implementation), (2) contains exactly one entry for every display
string that occurs in `ds` — no matter how many times ≥ 1 it occurs — and
(3) none for any other, and (4) is a sublist of `ds`, so entries appear in
first-seen source order, each positioned by its first occurrence. -/
theorem questRequirements_dedup (java body : List Char)
    (hbody : extractMethodBody java ("getGeneralRequirements").toList = some body) :
    ((parseGeneralRequirements java).questRequirements
        = firstDedup ((scanAllF matchQuestReq (body.length + 1) body).map convertQuestName)) ∧
    (∀ d, d ∈ (scanAllF matchQuestReq (body.length + 1) body).map convertQuestName →
      countL d ((parseGeneralRequirements java).questRequirements) = 1) ∧
    (∀ d, ¬ d ∈ (scanAllF matchQuestReq (body.length + 1) body).map convertQuestName →
      countL d ((parseGeneralRequirements java).questRequirements) = 0) ∧
    ((parseGeneralRequirements java).questRequirements).Sublist
      ((scanAllF matchQuestReq (body.length + 1) body).map convertQuestName) := by
  have hq : (parseGeneralRequirements java).questRequirements
      = ((scanAllF matchQuestReq (body.length + 1) body).map convertQuestName).foldl
          pushUniq [] := by
    unfold parseGeneralRequirements
    rw [hbody]
  have hfold := foldl_pushUniq
    ((scanAllF matchQuestReq (body.length + 1) body).map convertQuestName)
    [] [] (fun _ => rfl)
  rw [List.nil_append] at hfold
  refine ⟨hq.trans hfold, ?_, ?_, ?_⟩
  · intro d hd
    rw [hq, hfold]
    rw [firstDedupAux_count _ [] d]
    simp [hd]
  · intro d hd
    rw [hq, hfold]
    rw [firstDedupAux_count _ [] d]
    simp [hd]
  · rw [hq, hfold]
    exact firstDedupAux_sublist _ []

def wJavaC9 : List Char :=
  ("public void getGeneralRequirements() \x7b r.add(new QuestRequirement(QuestHelperQuest.COOKS_ASSISTANT, 2)); r.add(new QuestRequirement(QuestHelperQuest.COOKS_ASSISTANT, 2)); \x7d").toList

set_option maxRecDepth 8192 in
/-- Witness for C9: the same prerequisite referenced twice yields exactly one
output entry. -/
theorem questRequirements_dedup_witness :
    countL (("COOKS ASSISTANT").toList)
        ((parseGeneralRequirements wJavaC9).questRequirements) = 1 := by
  have h := (questRequirements_dedup wJavaC9
    ((" r.add(new QuestRequirement(QuestHelperQuest.COOKS_ASSISTANT, 2)); r.add(new QuestRequirement(QuestHelperQuest.COOKS_ASSISTANT, 2)); ").toList)
    (by decide)).2.1 (("COOKS ASSISTANT").toList) (by decide)
  exact h

/-! ## Lamp rewards (`parseLampRewards`) -/

def litLampReward : List Char := "LampReward".toList

def litXpLampReward : List Char := "XpLampReward".toList

def litItemReward : List Char := "ItemReward".toList

def litlampLower : List Char := "lamp".toList

def litLampCap : List Char := "Lamp".toList

def litanyLower : List Char := "any".toList

def litAnyCap : List Char := "Any".toList

def litSkillWord : List Char := "skill".toList

def litValueWord : List Char := "value".toList

def litQuantityWord : List Char := "quantity".toList

/-- Substring test (used for `[^"]*[Ll]amp[^"]*`-style conditions: the
bracketed pattern matches a quote-free run iff the run contains the
subpattern). -/
def containsSub (pat : List Char) : List Char → Bool
  | [] => pat.isEmpty
  | c :: r => pat.isPrefixOf (c :: r) || containsSub pat r

/-- First alternative of the lamp regex: `new\s+(?:LampReward|XpLampReward)`
(the two names start with different letters). -/
def lampBranch1 (s : List Char) : Option (List Char) := do
  let s1 ← eatLit litNew s
  let s2 ← eatWs1 s1
  match eatLit litLampReward s2 with
  | some r => some r
  | none => eatLit litXpLampReward s2

/-- Second alternative: `ItemReward\s*\(\s*"[^"]*[Ll]amp[^"]*"\s*` — the
quoted first argument must contain `lamp` or `Lamp` (only the leading letter
is case-insensitive in the character class `[Ll]`). -/
def lampBranch2 (s : List Char) : Option (List Char) := do
  let s1 ← eatLit litItemReward s
  let s2 ← eatChar '(' (skipWs s1)
  let s3 ← eatChar '"' (skipWs s2)
  let q := s3.takeWhile (fun c => c != '"')
  if containsSub litlampLower q || containsSub litLampCap q then do
    let s4 ← eatChar '"' (s3.drop q.length)
    some (skipWs s4)
  else none

/-- One attempt of the full lamp regex
`(?:new\s+(?:LampReward|XpLampReward)|ItemReward\s*\(\s*"[^"]*[Ll]amp[^"]*"\s*)[^)]*\)`
anchored at the start of `s`: either alternative (they start with different
letters), then everything up to and including the first `)`.  Returns the
matched text (`m[0]`) and the suffix after it. -/
def matchLampAt (s : List Char) : Option (List Char × List Char) :=
  match
    (match lampBranch1 s with
     | some r => some r
     | none => lampBranch2 s) with
  | none => none
  | some r1 =>
    let run := r1.takeWhile (fun c => c != ')')
    match eatChar ')' (r1.drop run.length) with
    | some r2 => some (s.take (s.length - r2.length), r2)
    | none => none

/-- `[=:]`. -/
def eatEqColon (s : List Char) : Option (List Char) :=
  match eatChar '=' s with
  | some r => some r
  | none => eatChar ':' s

/-- `skills?\s*[=:]\s*"([^"]+)"` — the optional `s` is taken iff present
(neither `\s*` nor `[=:]` can start with `s`, so no backtracking arises). -/
def matchSkillsField (s : List Char) : Option (List Char) := do
  let s1 ← eatLit litSkillWord s
  let s2 :=
    match s1 with
    | 's' :: r => r
    | _ => s1
  let s3 ← eatEqColon (skipWs s2)
  let s4 ← eatChar '"' (skipWs s3)
  let t := s4.takeWhile (fun c => c != '"')
  if t.isEmpty then none
  else do
    let _ ← eatChar '"' (s4.drop t.length)
    some t

/-- `"([^"]*[Aa]ny[^"]*)"` — a quoted run containing `any` or `Any`. -/
def matchAnyField (s : List Char) : Option (List Char) := do
  let s1 ← eatChar '"' s
  let q := s1.takeWhile (fun c => c != '"')
  let _ ← eatChar '"' (s1.drop q.length)
  if containsSub litanyLower q || containsSub litAnyCap q then some q else none

/-- `value\s*[=:]\s*(\d+)`. -/
def matchValueField (s : List Char) : Option Nat := do
  let s1 ← eatLit litValueWord s
  let s2 ← eatEqColon (skipWs s1)
  let (n, _) ← eatDigits (skipWs s2)
  some n

/-- `(\d{3,})`: at least three digits (the greedy run is maximal). -/
def matchDigits3 (s : List Char) : Option Nat :=
  match eatRun digitChar s with
  | some (t, _) => if 3 ≤ t.length then some (digitsToNat t) else none
  | none => none

/-- `quantity\s*[=:]\s*(\d+)`. -/
def matchQtyField (s : List Char) : Option Nat := do
  let s1 ← eatLit litQuantityWord s
  let s2 ← eatEqColon (skipWs s1)
  let (n, _) ← eatDigits (skipWs s2)
  some n

/-- `,(\d+)\s*\)` — digits immediately after a comma, then `\s*)`. -/
def matchCommaQty (s : List Char) : Option Nat := do
  let s1 ← eatChar ',' s
  let (n, s2) ← eatDigits s1
  let _ ← eatChar ')' (skipWs s2)
  some n

/-- `parseLampRewards(java)`: the leftmost match of the lamp regex (if any);
within its text, the skills / value / quantity fields each try a primary and
a secondary pattern and fall back to `"Any"` / `0` / `1`. -/
def parseLampRewards (java : List Char) : Option LampReward :=
  match extractMethodBody java ("getItemRewards").toList with
  | none => none
  | some body =>
    match findFirstF matchLampAt (body.length + 1) body with
    | none => none
    | some pr =>
      some ⟨
        (match findFirstF matchSkillsField (pr.1.length + 1) pr.1 with
         | some t => t
         | none =>
           match findFirstF matchAnyField (pr.1.length + 1) pr.1 with
           | some t => t
           | none => litAnyCap),
        (match findFirstF matchValueField (pr.1.length + 1) pr.1 with
         | some n => (n : Int)
         | none =>
           match findFirstF matchDigits3 (pr.1.length + 1) pr.1 with
           | some n => (n : Int)
           | none => 0),
        (match findFirstF matchQtyField (pr.1.length + 1) pr.1 with
         | some n => (n : Int)
         | none =>
           match findFirstF matchCommaQty (pr.1.length + 1) pr.1 with
           | some n => (n : Int)
           | none => 1)⟩

/-! ## Remaining per-quest parsers used by the orchestrator -/

def litQuestPointReward : List Char := "QuestPointReward".toList

def litExperienceReward : List Char := "ExperienceReward".toList

/-- `new\s+QuestPointReward\s*\(\s*(\d+)\s*\)` anchored at the start. -/
def matchQuestPointReward (s : List Char) : Option Nat := do
  let s1 ← eatLit litNew s
  let s2 ← eatWs1 s1
  let s3 ← eatLit litQuestPointReward s2
  let s4 ← eatChar '(' (skipWs s3)
  let (n, s5) ← eatDigits (skipWs s4)
  let _ ← eatChar ')' (skipWs s5)
  some n

/-- `parseQuestPoints(java)`: first match's number, else 0. -/
def parseQuestPoints (java : List Char) : Int :=
  match extractMethodBody java ("getQuestPointReward").toList with
  | none => 0
  | some body =>
    match findFirstF matchQuestPointReward (body.length + 1) body with
    | some n => (n : Int)
    | none => 0

/-- `new\s+ExperienceReward\s*\(\s*Skill\.(\w+)\s*,\s*(\d+)\s*\)` anchored at
the start (`\w+` is the maximal word run; `\s*,` cannot start with a word
character, so the greedy run is exact). -/
def matchExpReward (s : List Char) : Option ((List Char × Nat) × List Char) := do
  let s1 ← eatLit litNew s
  let s2 ← eatWs1 s1
  let s3 ← eatLit litExperienceReward s2
  let s4 ← eatChar '(' (skipWs s3)
  let s5 ← eatLit litSkillDot (skipWs s4)
  let (w, s6) ← eatRun wordChar s5
  let s7 ← eatChar ',' (skipWs s6)
  let (n, s8) ← eatDigits (skipWs s7)
  let s9 ← eatChar ')' (skipWs s8)
  some ((w, n), s9)

/-- `parseExperienceRewards(java)`: all matches in order; the skill name is
kept raw (`m[1]`), not display-converted. -/
def parseExperienceRewards (java : List Char) : List ExperienceReward :=
  match extractMethodBody java ("getExperienceRewards").toList with
  | none => []
  | some body =>
    (scanAllF matchExpReward (body.length + 1) body).map
      (fun p => ⟨p.1, (p.2 : Int)⟩)

/-- Capture of `\s*([^)]+)` against a non-`)` run: the greedy `\s*` first
takes the whole whitespace prefix; if nothing is left for `[^)]+`, it
backtracks by one character, so an all-whitespace run captures just its last
character.  `none` when the run is empty. -/
def captureAfterWs (run : List Char) : Option (List Char) :=
  match run with
  | [] => none
  | _ :: _ =>
    match run.dropWhile jsSpace with
    | [] =>
      match run.getLast? with
      | some c => some [c]
      | none => none
    | r => some r

/-- `List\.of\s*\(\s*([^)]+)\)` (or `Arrays\.asList\s*...`), anchored at the
start, returning the capture. -/
def matchListOfReq (kw : List Char) (s : List Char) : Option (List Char) := do
  let s1 ← eatLit kw s
  let s2 ← eatChar '(' (skipWs s1)
  let run := s2.takeWhile (fun c => c != ')')
  let _ ← eatChar ')' (s2.drop run.length)
  captureAfterWs run

def litReqsAdd : List Char := "reqs.add".toList

def litDotAdd : List Char := ".add".toList

/-- `(?:reqs\.add|\.add)\s*\(\s*([a-zA-Z_][a-zA-Z0-9_]*)\s*\)` anchored at
the start (the alternatives start with different characters). -/
def matchAddReq (s : List Char) : Option (List Char × List Char) := do
  let s1 ←
    match eatLit litReqsAdd s with
    | some r => some r
    | none => eatLit litDotAdd s
  let s2 ← eatChar '(' (skipWs s1)
  let (v, s3) ← eatIdent (skipWs s2)
  let s4 ← eatChar ')' (skipWs s3)
  some (v, s4)

/-- `parseItemRequirementVarNames(java)`: the first `List.of(...)` /
`Arrays.asList(...)` argument list split on commas, trimmed, reduced to the
last whitespace-separated word and filtered to identifiers (the same
per-token treatment as `panelVars`); otherwise all `reqs.add(x)` /
`.add(x)` captures in order. -/
def parseItemRequirementVarNames (java : List Char) : List (List Char) :=
  match extractMethodBody java ("getItemRequirements").toList with
  | none => []
  | some body =>
    match findFirstF (matchListOfReq litListOf) (body.length + 1) body with
    | some inner => panelVars inner
    | none =>
      match findFirstF (matchListOfReq litArraysAsList) (body.length + 1) body with
      | some inner => panelVars inner
      | none => scanAllF matchAddReq (body.length + 1) body

/-! ## Name conversions and the quest-file URL -/

def litClassWord : List Char := "class".toList

def litExtends : List Char := "extends".toList

/-- `public\s+class\s+(\w+)\s+extends` anchored at the start (after the
maximal `\w+` run the next character is not a word character, hence not a
space-or-`e`-mismatch source: `\s+` then the fixed literal is exact). -/
def matchClassName (s : List Char) : Option (List Char) := do
  let s1 ← eatLit litPublic s
  let s2 ← eatWs1 s1
  let s3 ← eatLit litClassWord s2
  let s4 ← eatWs1 s3
  let (w, s5) ← eatRun wordChar s4
  let s6 ← eatWs1 s5
  let _ ← eatLit litExtends s6
  some w

/-- `extractClassName(java)`: first match's capture, else `""`. -/
def extractClassName (java : List Char) : List Char :=
  match findFirstF matchClassName (java.length + 1) java with
  | some w => w
  | none => []

/-- `split(/\s+/)` with JS semantics: a leading separator yields a leading
empty token and a trailing separator a trailing empty token; `""` splits to
`[""]`.  Fuel-based; each step consumes at least one character. -/
def splitWsF : Nat → List Char → List (List Char)
  | 0, _ => []
  | fuel + 1, l =>
    let tok := l.takeWhile (fun c => !jsSpace c)
    match l.drop tok.length with
    | [] => [tok]
    | rest =>
      match rest.dropWhile jsSpace with
      | [] => [tok, []]
      | rest2 => tok :: splitWsF fuel rest2

def splitWs (l : List Char) : List (List Char) := splitWsF (l.length + 1) l

/-- `word.charAt(0).toUpperCase() + word.slice(1).toLowerCase()` (ASCII). -/
def capLower : List Char → List Char
  | [] => []
  | c :: rest => c.toUpper :: rest.map Char.toLower

/-- `displayNameToClassName`: drop apostrophes, split on whitespace,
capitalize each word, join. -/
def displayNameToClassName (name : List Char) : List Char :=
  ((splitWs (name.filter (fun c => c != '\x27'))).map capLower).flatten

/-- `classNameToFolder`: `replace(/([A-Z])/g, lower)` — exactly ASCII
uppercase letters are lowered, which is what `Char.toLower` does. -/
def classNameToFolder (name : List Char) : List Char :=
  name.map Char.toLower

def isLowerCh (c : Char) : Bool := 97 ≤ c.toNat && c.toNat ≤ 122

def isUpperCh (c : Char) : Bool := 65 ≤ c.toNat && c.toNat ≤ 90

/-- `replace(/([a-z])([A-Z])/g, "$1 $2")`: scanning left to right, insert a
space between a lowercase letter and an uppercase letter and resume after
the pair. -/
def camelSplit1 : List Char → List Char
  | [] => []
  | [c] => [c]
  | a :: b :: rest =>
    if isLowerCh a && isUpperCh b then a :: ' ' :: b :: camelSplit1 rest
    else a :: camelSplit1 (b :: rest)

/-- `replace(/([A-Z]+)([A-Z][a-z])/g, "$1 $2")`: at each position, if the
maximal uppercase run has length ≥ 2 and is followed by a lowercase letter,
the greedy group 1 is the run minus its last letter and group 2 is that last
letter plus the lowercase one; scanning resumes after the match.  Each loop
iteration consumes at least one character, so fuel = length suffices. -/
def upperRunSplitF : Nat → List Char → List Char
  | 0, l => l
  | _ + 1, [] => []
  | fuel + 1, c :: rest =>
    let u := (c :: rest).takeWhile isUpperCh
    if 2 ≤ u.length then
      match (c :: rest).drop u.length, u.getLast? with
      | d :: rest2, some lastu =>
        if isLowerCh d then
          u.dropLast ++ ' ' :: lastu :: d :: upperRunSplitF fuel rest2
        else c :: upperRunSplitF fuel rest
      | _, _ => c :: upperRunSplitF fuel rest
    else c :: upperRunSplitF fuel rest

/-- `classNameToDisplayName`: both camel-case splits, then trim. -/
def classNameToDisplayName (className : List Char) : List Char :=
  jsTrim (upperRunSplitF ((camelSplit1 className).length + 1) (camelSplit1 className))

def questHelperRawBase : List Char :=
  ("https://raw.githubusercontent.com/Zoinkwiz/quest-helper/master/src/main/java/com/questhelper/helpers/quests").toList

/-- `questFileUrl(displayName)` = `BASE/folder/ClassName.java`. -/
def questFileUrl (displayName : List Char) : List Char :=
  questHelperRawBase
    ++ '/' :: classNameToFolder (displayNameToClassName displayName)
    ++ '/' :: displayNameToClassName displayName
    ++ (".java").toList

/-! ## Batch orchestrator (`main`)

I/O is abstracted: `fetchF` stands for `fetchQuestFile` (per-URL success
with the file text, or failure with a message) and `writeF` for
`writeQuestFile` (per-call success or failure).  The approved-quests file
read is a single `Except` input.  Entries are `(displayName, flag)` pairs in
object order (`Object.entries` preserves string-key insertion order); the
`v === true` filter is modelled on `Bool` flags. -/

inductive BatchEvent where
  | fetchFailed (displayName : List Char)
  | wrote (displayName slug : List Char)
  | writeFailed (displayName : List Char)
deriving DecidableEq

/-- The display name an event was produced for. -/
def eventName : BatchEvent → List Char
  | .fetchFailed n => n
  | .wrote n _ => n
  | .writeFailed n => n

/-- The per-quest assembly of `main`'s loop body after a successful fetch:
the `QuestData` record and the output slug.  `className ? … : …` is JS
truthiness on a string, i.e. an emptiness test. -/
def assembleQuest (displayName java : List Char) : QuestData × List Char :=
  let className := extractClassName java
  let gr := parseGeneralRequirements java
  (⟨(if className.isEmpty then displayName else classNameToDisplayName className),
    parseQuestPoints java,
    parseExperienceRewards java,
    parseLampRewards java,
    gr.skillRequirements,
    gr.questRequirements,
    gr.questPointRequirement,
    resolveItemRequirements (parseItemRequirementVarNames java)
      (parseSetupRequirements java),
    buildSteps (parsePanels java) (parseSetupSteps java)⟩,
   (if className.isEmpty then classNameToFolder (displayNameToClassName displayName)
    else classNameToFolder className))

/-- One iteration of `main`'s loop: fetch failure → warn and `continue`;
write failure → warn and fall through to the next iteration; otherwise the
file is written.  Every outcome is one event. -/
def processQuest (fetchF : List Char → Except (List Char) (List Char))
    (writeF : List Char → QuestData → Except (List Char) Unit)
    (displayName : List Char) : BatchEvent :=
  match fetchF (questFileUrl displayName) with
  | .error _ => .fetchFailed displayName
  | .ok java =>
    match writeF (assembleQuest displayName java).2 (assembleQuest displayName java).1 with
    | .ok _ => .wrote displayName (assembleQuest displayName java).2
    | .error _ => .writeFailed displayName

/-- The `for (const displayName of toProcess)` loop. -/
def batchLoop (fetchF : List Char → Except (List Char) (List Char))
    (writeF : List Char → QuestData → Except (List Char) Unit) :
    List (List Char) → List BatchEvent
  | [] => []
  | n :: rest => processQuest fetchF writeF n :: batchLoop fetchF writeF rest

/-- `main`: a failed read of approved-quests.json is `process.exit(1)`
before any quest is touched; otherwise the trace of the loop over
`Object.entries(approved).filter(([, v]) => v === true).map(([name]) => name)`.
(The `toProcess.length === 0` early return produces the same empty trace as
the loop on an empty list.) -/
def runBatch (approved : Except (List Char) (List (List Char × Bool)))
    (fetchF : List Char → Except (List Char) (List Char))
    (writeF : List Char → QuestData → Except (List Char) Unit) :
    Except (List Char) (List BatchEvent) :=
  match approved with
  | .error e => .error e
  | .ok l =>
    .ok (batchLoop fetchF writeF ((l.filter (fun p => p.2 == true)).map Prod.fst))

/-! ### C2 lemmas -/

theorem eventName_processQuest (fetchF : List Char → Except (List Char) (List Char))
    (writeF : List Char → QuestData → Except (List Char) Unit) (n : List Char) :
    eventName (processQuest fetchF writeF n) = n := by
  unfold processQuest
  cases fetchF (questFileUrl n) with
  | error e => rfl
  | ok java =>
    show eventName
        (match writeF (assembleQuest n java).2 (assembleQuest n java).1 with
         | Except.ok _ => BatchEvent.wrote n (assembleQuest n java).2
         | Except.error _ => BatchEvent.writeFailed n) = n
    cases writeF (assembleQuest n java).2 (assembleQuest n java).1 with
    | error e => rfl
    | ok u => rfl

theorem batchLoop_map_eventName (fetchF : List Char → Except (List Char) (List Char))
    (writeF : List Char → QuestData → Except (List Char) Unit) (ns : List (List Char)) :
    (batchLoop fetchF writeF ns).map eventName = ns := by
  induction ns with
  | nil => rfl
  | cons n rest ih =>
    simp [batchLoop, eventName_processQuest, ih]

theorem batchLoop_append (fetchF : List Char → Except (List Char) (List Char))
    (writeF : List Char → QuestData → Except (List Char) Unit)
    (a b : List (List Char)) :
    batchLoop fetchF writeF (a ++ b)
      = batchLoop fetchF writeF a ++ batchLoop fetchF writeF b := by
  induction a with
  | nil => rfl
  | cons n rest ih => simp [batchLoop, ih]

/-- C2: for every approved-input list, the batch orchestrator (`main`)
attempts every entry whose value is true exactly once, in the list's order
(the trace has exactly those display names, in order); the batch never
aborts on a single input's failure: the trace around any true entry is the
two independent halves with that entry's own event in between, whatever its
outcome; a fetch failure or a write failure for one input yields only that
input's skip event; and the only terminating failure is the failure to read
the approved-input list itself, which produces no events at all. -/
theorem runBatch_spec :
    (∀ (e : List Char) (fetchF : List Char → Except (List Char) (List Char))
       (writeF : List Char → QuestData → Except (List Char) Unit),
       runBatch (Except.error e) fetchF writeF = Except.error e) ∧
    (∀ (l : List (List Char × Bool))
       (fetchF : List Char → Except (List Char) (List Char))
       (writeF : List Char → QuestData → Except (List Char) Unit),
       ∃ tr, runBatch (Except.ok l) fetchF writeF = Except.ok tr ∧
         tr.map eventName = (l.filter (fun p => p.2 == true)).map Prod.fst) ∧
    (∀ (l1 l2 : List (List Char × Bool)) (n : List Char)
       (fetchF : List Char → Except (List Char) (List Char))
       (writeF : List Char → QuestData → Except (List Char) Unit),
       runBatch (Except.ok (l1 ++ (n, true) :: l2)) fetchF writeF
         = Except.ok
             (batchLoop fetchF writeF ((l1.filter (fun p => p.2 == true)).map Prod.fst)
               ++ processQuest fetchF writeF n
                 :: batchLoop fetchF writeF
                      ((l2.filter (fun p => p.2 == true)).map Prod.fst))) ∧
    (∀ (fetchF : List Char → Except (List Char) (List Char))
       (writeF : List Char → QuestData → Except (List Char) Unit)
       (n err : List Char), fetchF (questFileUrl n) = Except.error err →
       processQuest fetchF writeF n = BatchEvent.fetchFailed n) ∧
    (∀ (fetchF : List Char → Except (List Char) (List Char))
       (writeF : List Char → QuestData → Except (List Char) Unit)
       (n java err : List Char), fetchF (questFileUrl n) = Except.ok java →
       writeF (assembleQuest n java).2 (assembleQuest n java).1 = Except.error err →
       processQuest fetchF writeF n = BatchEvent.writeFailed n) := by
  refine ⟨fun e fetchF writeF => rfl, fun l fetchF writeF => ?_, ?_, ?_, ?_⟩
  · exact ⟨_, rfl, batchLoop_map_eventName fetchF writeF _⟩
  · intro l1 l2 n fetchF writeF
    simp [runBatch, List.filter_append, List.map_append, batchLoop_append,
      List.filter_cons, batchLoop]
  · intro fetchF writeF n err h
    unfold processQuest
    rw [h]
  · intro fetchF writeF n java err h1 h2
    unfold processQuest
    rw [h1]
    show (match writeF (assembleQuest n java).2 (assembleQuest n java).1 with
          | Except.ok _ => BatchEvent.wrote n (assembleQuest n java).2
          | Except.error _ => BatchEvent.writeFailed n) = BatchEvent.writeFailed n
    rw [h2]

theorem runBatch_spec_witness :
    runBatch (Except.ok ([] ++ ((("A").toList), true) :: [((("B").toList), false)]))
        (fun _ => Except.error (("e").toList)) (fun _ _ => Except.ok ())
      = Except.ok [BatchEvent.fetchFailed (("A").toList)] ∧
    processQuest (fun _ => Except.ok (("x").toList))
        (fun _ _ => Except.error (("w").toList)) (("A").toList)
      = BatchEvent.writeFailed (("A").toList) := by
  constructor
  · have h3 := runBatch_spec.2.2.1 [] [((("B").toList), false)] (("A").toList)
        (fun _ => Except.error (("e").toList)) (fun _ _ => Except.ok ())
    have h4 := runBatch_spec.2.2.2.1
        (fun _ => Except.error (("e").toList)) (fun _ _ => Except.ok ())
        (("A").toList) (("e").toList) rfl
    rw [h3, h4]
    rfl
  · exact runBatch_spec.2.2.2.2 (fun _ => Except.ok (("x").toList))
      (fun _ _ => Except.error (("w").toList)) (("A").toList) (("x").toList)
      (("w").toList) rfl rfl

/-! ### C8 helper lemmas -/

theorem lampBranch2_eq (q tail : List Char) (hq : q.all (fun c => c != '"') = true) :
    lampBranch2 (litItemReward ++ ('(' :: '"' :: (q ++ '"' :: tail)))
      = (if containsSub litlampLower q || containsSub litLampCap q
         then some (skipWs tail) else none) := by
  unfold lampBranch2
  rw [eatLit_append]
  simp only [Option.bind_eq_bind, Option.some_bind]
  rw [skipWs_cons_false _ (by decide)]
  rw [eatChar_cons_self]
  simp only [Option.some_bind]
  rw [skipWs_cons_false _ (by decide)]
  rw [eatChar_cons_self]
  simp only [Option.some_bind]
  rw [takeWhile_all_append hq (by decide) tail]
  rw [List.drop_left]
  rw [eatChar_cons_self]
  split
  · simp only [Option.some_bind]
  · rfl

theorem lampBranch1_construct (ws X : List Char) (hws : ws.all jsSpace = true)
    (hwne : ws ≠ []) :
    lampBranch1 (litNew ++ (ws ++ (litLampReward ++ X)))
      = some X := by
  unfold lampBranch1
  rw [eatLit_append]
  simp only [Option.bind_eq_bind, Option.some_bind]
  rw [eatWs1_append hws hwne]
  simp only [Option.some_bind]
  rw [skipWs_eq_self_of_head (by decide) (by decide)]
  rw [eatLit_append]

theorem matchLampAt_lampConstruct (ws mid tail : List Char)
    (hws : ws.all jsSpace = true) (hwne : ws ≠ [])
    (hmid : mid.all (fun c => c != ')') = true) :
    matchLampAt (litNew ++ (ws ++ (litLampReward ++ (mid ++ ')' :: tail))))
      = some (litNew ++ (ws ++ (litLampReward ++ (mid ++ [')']))), tail) := by
  unfold matchLampAt
  rw [lampBranch1_construct ws (mid ++ ')' :: tail) hws hwne]
  simp only []
  rw [takeWhile_all_append hmid (by decide) tail]
  rw [List.drop_left]
  rw [eatChar_cons_self]
  have hs : litNew ++ (ws ++ (litLampReward ++ (mid ++ ')' :: tail)))
      = (litNew ++ (ws ++ (litLampReward ++ (mid ++ [')'])))) ++ tail := by simp
  rw [hs]
  simp only []
  rw [List.length_append, Nat.add_sub_cancel, List.take_left]

def cexJavaC8 : List Char :=
  ("public List<ItemReward> getItemRewards() \x7b return List.of(new ItemReward(\"Combat LAMP\", 2, 1)); \x7d").toList

set_option maxRecDepth 8192 in
/-- Counterexample to C8 as stated: a `getItemRewards` body whose generic
reward constructor's first string argument contains "lamp"
case-insensitively (it contains `LAMP`, so lowercasing the body yields the
substring `lamp`) is NOT matched: the character class `[Ll]amp` only makes
the leading letter case-insensitive, so `parseLampRewards` returns none. -/
theorem parseLampRewards_case_cex :
    containsSub litlampLower (cexJavaC8.map Char.toLower) = true ∧
    parseLampRewards cexJavaC8 = none := by
  constructor
  · decide
  · decide

/-- C8 (amended): the lamp-reward extractor matches either an explicit
lamp-reward constructor (`new LampReward` / `new XpLampReward`) or a generic
`ItemReward` constructor whose first string argument contains `lamp` or
`Lamp` — only the leading letter is case-insensitive (`[Ll]amp`), so other
casings such as `LAMP` are not matched; the matched text runs to the first
closing parenthesis; within it the skills, value and quantity fields are
taken from their primary patterns when present and fall back to `"Any"`,
`0` and `1` when neither the primary nor the secondary pattern occurs; and
the extractor returns none exactly when the method body is missing or no
lamp-like construct is found. -/
theorem parseLampRewards_amended :
    (∀ java, extractMethodBody java (("getItemRewards").toList) = none →
       parseLampRewards java = none) ∧
    (∀ java body, extractMethodBody java (("getItemRewards").toList) = some body →
       findFirstF matchLampAt (body.length + 1) body = none →
       parseLampRewards java = none) ∧
    (∀ java body pr, extractMethodBody java (("getItemRewards").toList) = some body →
       findFirstF matchLampAt (body.length + 1) body = some pr →
       findFirstF matchSkillsField (pr.1.length + 1) pr.1 = none →
       findFirstF matchAnyField (pr.1.length + 1) pr.1 = none →
       findFirstF matchValueField (pr.1.length + 1) pr.1 = none →
       findFirstF matchDigits3 (pr.1.length + 1) pr.1 = none →
       findFirstF matchQtyField (pr.1.length + 1) pr.1 = none →
       findFirstF matchCommaQty (pr.1.length + 1) pr.1 = none →
       parseLampRewards java = some ⟨litAnyCap, 0, 1⟩) ∧
    (∀ java body pr t n m,
       extractMethodBody java (("getItemRewards").toList) = some body →
       findFirstF matchLampAt (body.length + 1) body = some pr →
       findFirstF matchSkillsField (pr.1.length + 1) pr.1 = some t →
       findFirstF matchValueField (pr.1.length + 1) pr.1 = some n →
       findFirstF matchQtyField (pr.1.length + 1) pr.1 = some m →
       parseLampRewards java = some ⟨t, (n : Int), (m : Int)⟩) ∧
    (∀ ws mid tail, ws.all jsSpace = true → ws ≠ [] →
       mid.all (fun c => c != ')') = true →
       matchLampAt (litNew ++ (ws ++ (litLampReward ++ (mid ++ ')' :: tail))))
         = some (litNew ++ (ws ++ (litLampReward ++ (mid ++ [')']))), tail)) ∧
    (∀ q tail, q.all (fun c => c != '"') = true →
       (containsSub litlampLower q || containsSub litLampCap q) = true →
       lampBranch2 (litItemReward ++ ('(' :: '"' :: (q ++ '"' :: tail)))
         = some (skipWs tail)) ∧
    (∀ q tail, q.all (fun c => c != '"') = true →
       containsSub litlampLower q = false → containsSub litLampCap q = false →
       lampBranch2 (litItemReward ++ ('(' :: '"' :: (q ++ '"' :: tail))) = none) := by
  refine ⟨?_, ?_, ?_, ?_, ?_, ?_, ?_⟩
  · intro java h
    unfold parseLampRewards
    rw [h]
  · intro java body hb hm
    unfold parseLampRewards
    rw [hb]
    simp only []
    rw [hm]
  · intro java body pr hb hm h1 h2 h3 h4 h5 h6
    unfold parseLampRewards
    rw [hb]
    simp only []
    rw [hm]
    simp only []
    rw [h1, h2, h3, h4, h5, h6]
  · intro java body pr t n m hb hm h1 h2 h3
    unfold parseLampRewards
    rw [hb]
    simp only []
    rw [hm]
    simp only []
    rw [h1, h2, h3]
  · intro ws mid tail hws hwne hmid
    exact matchLampAt_lampConstruct ws mid tail hws hwne hmid
  · intro q tail hq hc
    rw [lampBranch2_eq q tail hq, hc]
    rfl
  · intro q tail hq h1 h2
    rw [lampBranch2_eq q tail hq, h1, h2]
    rfl

theorem parseLampRewards_amended_witness :
    parseLampRewards (("getItemRewards() \x7b \x7d").toList) = none ∧
    lampBranch2 (litItemReward
        ++ ('(' :: '"' :: (((("Antique lamp").toList) ++ '"' :: ((", 2)").toList)))))
      = some (skipWs ((", 2)").toList)) ∧
    lampBranch2 (litItemReward
        ++ ('(' :: '"' :: (((("Combat LAMP").toList) ++ '"' :: ((", 2)").toList)))))
      = none := by
  refine ⟨?_, ?_, ?_⟩
  · exact parseLampRewards_amended.1 _ (by decide)
  · exact parseLampRewards_amended.2.2.2.2.2.1 (("Antique lamp").toList)
      ((", 2)").toList) (by decide) (by decide)
  · exact parseLampRewards_amended.2.2.2.2.2.2 (("Combat LAMP").toList)
      ((", 2)").toList) (by decide) (by decide) (by decide)
